import Mathlib

/-!
Verification of the `automl` pipeline optimizer (`automl/main.py`).

The development shallowly embeds the data model and the operations of
`OptimizePipeline` (model catalog mutation, parent search-space
construction, transformation cooking, the run ledger and its
best-pipeline queries) together with the module-level function
`eval_model_manually`, and proves the specified properties about them.

Python floats are modelled by `FVal`: an exact rational for finite
values, plus `nan`, `posInf` and `negInf` for the non-finite values the
code explicitly handles (`math.isfinite`, `np.nanmin`, `np.nanargmin`).
Python dictionaries are modelled by association lists with dictionary
(last-write-wins, unique-key) insertion semantics.  Exceptions are
modelled by `Except PyErr` or by returning the partially mutated state
together with `Option PyErr`, mirroring the fact that a Python method
that raises midway leaves its earlier mutations in place.
-/

/-- Kinds of Python exception observable from the embedded code. -/
inductive PyErr where
  /-- `MetricNotMonitored` raised by the query operations. -/
  | metricNotMonitored
  /-- `ModelNotUsedError` raised by `get_best_pipeline_by_model`. -/
  | modelNotUsed
  /-- `AssertionError` raised by a failing `assert` statement. -/
  | assertionError
  /-- `KeyError` from a failed dictionary lookup / `dict.pop`. -/
  | keyError
  /-- `ValueError` from `list.remove` on a missing element or numpy
  reductions over empty data. -/
  | valueError
  /-- `IndexError` from indexing an empty list. -/
  | indexError
  /-- `TypeError`, e.g. `set()` applied to a list of unhashable lists. -/
  | typeError
deriving DecidableEq, Repr

/-- A Python float: an exact rational when finite, or one of the
non-finite values `nan`, `inf`, `-inf`. -/
inductive FVal where
  | finite (q : ℚ)
  | nan
  | posInf
  | negInf
deriving DecidableEq, Repr

namespace FVal

/-- `math.isfinite` / `np.isfinite`. -/
def isFinite : FVal → Bool
  | finite _ => true
  | _ => false

/-- Whether the value is a NaN. -/
def isNan : FVal → Bool
  | nan => true
  | _ => false

/-- Python subtraction `1.0 - v` on floats, including its behaviour on
the non-finite values (`1.0 - inf = -inf`, `1.0 - nan = nan`). -/
def oneMinus : FVal → FVal
  | finite q => finite (1 - q)
  | nan => nan
  | posInf => negInf
  | negInf => posInf

/-- A total comparison on `FVal` used to embed Python sorting and numpy
reductions.  On non-`nan` values it is the extended-real order
`-inf < finite < inf`; `nan` is placed at the bottom.  All theorems
that depend on the order carry finiteness hypotheses, so only the
finite-versus-finite case (exact rational order, which agrees with
float comparison) is ever relied upon. -/
def fle : FVal → FVal → Bool
  | nan, _ => true
  | _, nan => false
  | negInf, _ => true
  | _, negInf => false
  | finite p, finite q => p ≤ q
  | _, posInf => true
  | posInf, _ => false

/-- Binary minimum with respect to `fle` for non-`nan` operands, used to
embed `np.nanmin` (numpy folds the nan-filtered data with `fmin`). -/
def minNN : FVal → FVal → FVal
  | negInf, _ => negInf
  | _, negInf => negInf
  | posInf, b => b
  | a, posInf => a
  | finite p, finite q => finite (min p q)
  | nan, b => b
  | a, nan => a

/-- Binary maximum with respect to `fle` for non-`nan` operands, used to
embed `np.nanmax`. -/
def maxNN : FVal → FVal → FVal
  | posInf, _ => posInf
  | _, posInf => posInf
  | negInf, b => b
  | a, negInf => a
  | finite p, finite q => finite (max p q)
  | nan, b => b
  | a, nan => a

end FVal

/-- Python `round` applied to an exact rational: round to the nearest
integer, resolving exact ties to the even integer (banker's rounding,
the semantics of `round` in Python 3). -/
def roundHalfEven (x : ℚ) : ℤ :=
  if x - ⌊x⌋ < 1/2 then ⌊x⌋
  else if x - ⌊x⌋ > 1/2 then ⌊x⌋ + 1
  else if 2 ∣ ⌊x⌋ then ⌊x⌋ else ⌊x⌋ + 1

/-- Python `round(x, 4)`: round to four decimal places. -/
def round4Q (x : ℚ) : ℚ := (roundHalfEven (x * 10000) : ℚ) / 10000

/-- `round(v, 4)` lifted to Python floats; `round` leaves the
non-finite values unchanged. -/
def FVal.round4 : FVal → FVal
  | FVal.finite q => FVal.finite (round4Q q)
  | v => v

/-- Module-level `eval_model_manually` (`automl/main.py` lines
1642-1664), after the externally computed metric value.  The prediction
and the metric computation are performed by the external collaborators
(ai4water `Model.predict` and SeqMetrics); the function is embedded in
terms of the already computed metric value `val_score` and the metric
type `metric_type = MATRIC_TYPES.get(metric, 'min')` declared by the
external `MATRIC_TYPES` table.  The source then flips the score for
non-minimized metrics and substitutes `1.0` for any non-finite
result. -/
def eval_model_manually (val_score : FVal) (metric_type : String) : FVal :=
  let v := if metric_type != "min" then val_score.oneMinus else val_score
  if !v.isFinite then FVal.finite 1 else v

/-- One transform specification cooked by `_cook_transformations`: the
Python dictionary `{"method": ..., "features": [...]}` with the
optional keys `treat_negatives` / `replace_zeros` modelled as `Option
Bool` (`none` = key absent). -/
structure TransformSpec where
  method : String
  features : List String
  treat_negatives : Option Bool := none
  replace_zeros : Option Bool := none
deriving DecidableEq, Repr

/-- Hyperparameters chosen for a model in one parent iteration
(`opt_paras`): a dictionary from parameter name to value. -/
def HyperParams := List (String × ℚ)
deriving instance DecidableEq, Repr for HyperParams

/-- One entry of `self.parent_suggestions`: the record written by
`parent_objective` for one completed parent iteration. -/
structure PipelineRecord where
  x_transformation : List TransformSpec
  y_transformation : List TransformSpec
  /-- the dictionary `{estimator: opt_paras}`. -/
  model : List (String × HyperParams)
  path : String
deriving DecidableEq, Repr

/-- The run ledger read by the query operations: `self.metrics` (one
history per monitored metric; the history is the ordered dictionary
iteration → value, with the value of iteration `i+1` stored at list
index `i`, matching the keys `1, 2, ...` assigned from the
`parent_iter_` counter) and `self.parent_suggestions` (the record of
iteration `i+1` stored at list index `i`, for the same reason). -/
structure RunLedger where
  metrics : List (String × List FVal)
  parent_suggestions : List PipelineRecord
deriving DecidableEq, Repr

/-- Dictionary lookup in `self.metrics`. -/
def lookupMetric (st : RunLedger) (metric_name : String) : Option (List FVal) :=
  (st.metrics.find? (fun p => p.1 == metric_name)).map Prod.snd

/-- `np.nanmin` over a Python list: `ValueError` (`none`) on empty
data; otherwise the minimum ignoring NaNs (`nan` itself when every
entry is NaN, which numpy returns with a warning). -/
def nanmin (l : List FVal) : Option FVal :=
  if l.isEmpty then none
  else match l.filter (fun v => !v.isNan) with
    | [] => some FVal.nan
    | x :: xs => some (xs.foldl FVal.minNN x)

/-- `np.nanmax`, dually. -/
def nanmax (l : List FVal) : Option FVal :=
  if l.isEmpty then none
  else match l.filter (fun v => !v.isNan) with
    | [] => some FVal.nan
    | x :: xs => some (xs.foldl FVal.maxNN x)

/-- `np.nanargmin`: position of the first occurrence of the
NaN-ignoring minimum; `ValueError` (`none`) when the data is empty or
all NaN. -/
def nanargmin (l : List FVal) : Option ℕ :=
  match l.filter (fun v => !v.isNan) with
  | [] => none
  | x :: xs => l.findIdx? (fun v => v == xs.foldl FVal.minNN x)

/-- `np.nanargmax`, dually. -/
def nanargmax (l : List FVal) : Option ℕ :=
  match l.filter (fun v => !v.isNan) with
  | [] => none
  | x :: xs => l.findIdx? (fun v => v == xs.foldl FVal.maxNN x)

/-- `OptimizePipeline.get_best_metric` (`automl/main.py` lines
768-781).  `mt` is the external `MATRIC_TYPES` lookup (metric name →
"min" | "max").  Raises `MetricNotMonitored` when the metric has no
history in `self.metrics`; otherwise `np.nanmin`/`np.nanmax` of the
recorded values (which raise `ValueError` on an empty history). -/
def get_best_metric (mt : String → String) (st : RunLedger)
    (metric_name : String) : Except PyErr FVal :=
  match lookupMetric st metric_name with
  | none => .error .metricNotMonitored
  | some hist =>
    match (if mt metric_name == "min" then nanmin hist else nanmax hist) with
    | none => .error .valueError
    | some v => .ok v

/-- `OptimizePipeline.get_best_metric_iteration` (`automl/main.py`
lines 783-805), after the `metric_name or self.eval_metric`
defaulting: `np.nanargmin`/`np.nanargmax` over the recorded values,
plus one (the histories are keyed by the 1-based iteration number). -/
def get_best_metric_iteration (mt : String → String) (st : RunLedger)
    (metric_name : String) : Except PyErr ℕ :=
  match lookupMetric st metric_name with
  | none => .error .metricNotMonitored
  | some hist =>
    match (if mt metric_name == "min" then nanargmin hist else nanargmax hist) with
    | none => .error .valueError
    | some idx => .ok (idx + 1)

/-- Whether `model_name in iter_suggestions['model']` holds for a
record. -/
def recMatches (model_name : String) (r : PipelineRecord) : Bool :=
  r.model.any (fun p => p.1 == model_name)

/-- The container used by `get_best_pipeline_by_model`. -/
abbrev Container := List (FVal × PipelineRecord)

/-- Python dictionary assignment `model_container[metric_val] =
iter_suggestions` on an association list: overwrite the value of an
existing key in place, otherwise append the new binding. -/
def dictInsert (c : Container) (k : FVal) (v : PipelineRecord) : Container :=
  if c.any (fun p => p.1 == k) then
    c.map (fun p => if p.1 == k then (k, v) else p)
  else c ++ [(k, v)]

/-- Dictionary lookup in a container. -/
def clookup (c : Container) (k : FVal) : Option PipelineRecord :=
  (c.find? (fun p => p.1 == k)).map Prod.snd

/-- The `for iter_num, iter_suggestions in self.parent_suggestions.
items()` loop of `get_best_pipeline_by_model`: starting from iteration
number `it`, for every record whose `model` dictionary contains
`model_name`, look the metric value up at the iteration key (a
`KeyError` if the history has no such key), round it to 4 decimal
places and store the record in the container under the rounded key. -/
def buildContainer (model_name : String) (hist : List FVal) :
    ℕ → List PipelineRecord → Container → Except PyErr Container
  | _, [], acc => .ok acc
  | it, r :: rest, acc =>
    if recMatches model_name r then
      match hist.get? (it - 1) with
      | none => .error .keyError
      | some v => buildContainer model_name hist (it + 1) rest
          (dictInsert acc v.round4 r)
    else buildContainer model_name hist (it + 1) rest acc

/-- Order on container items used to embed Python
`sorted(model_container.items())`: tuples compare by their first
component (the keys are distinct, so the second component never
participates). -/
def itemLe (a b : FVal × PipelineRecord) : Prop := FVal.fle a.1 b.1 = true

instance : DecidableRel itemLe := fun a b => by
  unfold itemLe; infer_instance

/-- `OptimizePipeline.get_best_pipeline_by_model` (`automl/main.py`
lines 833-890), after the `metric_name or self.eval_metric`
defaulting: check the metric is monitored, build the container keyed
by rounded metric values, raise `ModelNotUsedError` if it is empty,
sort the items by key and return the last (greatest-key) item. -/
def get_best_pipeline_by_model (st : RunLedger) (model_name : String)
    (metric_name : String) : Except PyErr (FVal × PipelineRecord) :=
  match lookupMetric st metric_name with
  | none => .error .metricNotMonitored
  | some hist =>
    match buildContainer model_name hist 1 st.parent_suggestions [] with
    | .error e => .error e
    | .ok c =>
      if c.isEmpty then .error .modelNotUsed
      else
        match (List.insertionSort itemLe c).getLast? with
        | some e => .ok e
        | none => .error .indexError

/-- A hyperparameter search-space object as produced by the external
`to_skopt_space` helper; its contents are never inspected by the
catalog operations, so it is modelled by its list of dimension
names. -/
structure SkoptSpace where
  dims : List String
deriving DecidableEq, Repr

/-- The model catalog triple mutated by `add_model` /
`remove_model` / `change_child_iteration`: `self.models` (a list),
`self.estimator_space` and `self._child_iters` (dictionaries), plus the
global `self.child_iterations` default budget fixed at
construction. -/
structure CatalogState where
  models : List String
  estimator_space : List (String × SkoptSpace)
  child_iters : List (String × ℕ)
  child_iterations : ℕ
deriving DecidableEq, Repr

/-- `OptimizePipeline.add_model` (`automl/main.py` lines 348-379) for
the documented length-one argument dictionary `{model_name:
model_space}` (with `to_skopt_space` already applied by the external
helper).  The three `assert` statements fire before any mutation, so a
duplicate name leaves the state unchanged; on success the model is
appended to all three structures, the budget defaulting to the global
`child_iterations`. -/
def add_model (st : CatalogState) (model_name : String)
    (model_space : SkoptSpace) : CatalogState × Option PyErr :=
  if st.estimator_space.any (fun p => p.1 == model_name) then
    (st, some .assertionError)
  else if st.models.contains model_name then (st, some .assertionError)
  else if st.child_iters.any (fun p => p.1 == model_name) then
    (st, some .assertionError)
  else
    ({ st with
        estimator_space := st.estimator_space ++ [(model_name, model_space)],
        models := st.models ++ [model_name],
        child_iters := st.child_iters ++ [(model_name, st.child_iterations)] },
     none)

/-- `OptimizePipeline.remove_model` (`automl/main.py` lines 381-406)
for a single model name (a string argument is wrapped into a one-element
list by the source).  `list.remove` raises `ValueError` on a missing
element before anything is mutated; `dict.pop` raises `KeyError` on a
missing key, in which case the mutations already performed remain (the
returned state is the partially mutated one). -/
def remove_model (st : CatalogState) (model_name : String) :
    CatalogState × Option PyErr :=
  if st.models.contains model_name then
    let st1 := { st with models := st.models.erase model_name }
    if st1.estimator_space.any (fun p => p.1 == model_name) then
      let st2 := { st1 with estimator_space :=
        st1.estimator_space.eraseP (fun p => p.1 == model_name) }
      if st2.child_iters.any (fun p => p.1 == model_name) then
        ({ st2 with child_iters :=
            st2.child_iters.eraseP (fun p => p.1 == model_name) }, none)
      else (st2, some .keyError)
    else (st1, some .keyError)
  else (st, some .valueError)

/-- The module-level default transformation catalogs
(`automl/main.py` lines 30-34). -/
def DEFAULT_TRANSFORMATIONS : List String :=
  ["minmax", "center", "scale", "zscore", "box-cox", "yeo-johnson",
   "quantile", "robust", "log", "log2", "log10", "sqrt", "none"]

/-- The fixed output-safe subset. -/
def DEFAULT_Y_TRANFORMATIONS : List String :=
  ["log", "log2", "log10", "sqrt", "none"]

/-- A caller-supplied transformation choice: either one flat list of
transform names for every feature, or a per-feature dictionary of
lists. -/
inductive TransChoice where
  | flat (l : List String)
  | perFeature (d : List (String × List String))
deriving DecidableEq, Repr

/-- Dictionary assignment on a string-keyed dictionary of transform
lists (for the `append` dictionary built by `space`). -/
def dinsert (d : List (String × List String)) (k : String)
    (v : List String) : List (String × List String) :=
  if d.any (fun p => p.1 == k) then
    d.map (fun p => if p.1 == k then (k, v) else p)
  else d ++ [(k, v)]

/-- Dictionary lookup in such a dictionary. -/
def dlookup (d : List (String × List String)) (k : String) :
    Option (List String) :=
  (d.find? (fun p => p.1 == k)).map Prod.snd

/-- One dimension of the parent search space.  Only categorical
dimensions arise here: feature-transform choices and the estimator
choice. -/
structure Dim where
  name : String
  categories : List String
deriving DecidableEq, Repr

/-- Modelled from the spec: the external helper
`ai4water._optimize.make_space` is not part of this repository.  Per
the Search Space Builder contract, for each feature needing
transformation it "emits one categorical dimension over the union of
candidate transform names applicable to that feature (global list, or
a per-feature override list if the caller supplied a mapping instead
of a flat list)"; the override mapping is passed through the `append`
argument.  The Python `set` of candidate names is modelled by a
duplicate-free list. -/
def make_space (features : List String) (categories : List String)
    (append : List (String × List String)) : List Dim :=
  features.map (fun f =>
    { name := f, categories := (dlookup append f).getD categories })

/-- The configuration fields of `OptimizePipeline` read by `space`.
`output_transformations` is the value after the constructor's
`output_transformations or DEFAULT_Y_TRANFORMATIONS` defaulting. -/
structure SpaceConfig where
  inputs_to_transform : List String
  input_transformations : Option TransChoice
  outputs_to_transform : Option (List String)
  output_transformations : TransChoice
  output_features : List String
  models : List String
deriving DecidableEq, Repr

/-- The tail of `space()` shared by every branch: build the combined
space via `make_space` over `inputs_to_transform +
(outputs_to_transform or [])` with `set(x_categories + y_categories)`
as the global category set, then append the `Categorical(self.models,
name="estimator")` dimension when more than one model is registered,
or disable estimator optimization (`self._optimize_estimator = False;
self._estimator = self.models[0]`) when not.  The returned triple is
(space, `_optimize_estimator`, `_estimator`) for the fresh run state
(`_optimize_estimator = True`, `_estimator = None`) in which `fit`
invokes `space()`. -/
def spaceTail (cfg : SpaceConfig) (x_categories y_categories : List String)
    (append : List (String × List String)) :
    Except PyErr (List Dim × Bool × Option String) :=
  let sp := make_space
    (cfg.inputs_to_transform ++ (cfg.outputs_to_transform.getD []))
    ((x_categories ++ y_categories).dedup) append
  if cfg.models.length > 1 then
    .ok (sp ++ [{ name := "estimator", categories := cfg.models }], true, none)
  else
    match cfg.models with
    | [] => .error .indexError
    | m :: _ => .ok (sp, false, some m)

/-- `OptimizePipeline.space` (`automl/main.py` lines 435-488).  The
input-transformation argument contributes the global category list
(flat case) or per-feature overrides in `append` (dict case, never
validated).  When `outputs_to_transform` is truthy, a flat output
transformation list is validated against `DEFAULT_Y_TRANFORMATIONS`
and recorded for every output feature; in the dict case the source
iterates over the dictionary object itself inside
`all([t in DEFAULT_Y_TRANFORMATIONS for t in
self.output_transformations])`, i.e. over its keys, so the assert
compares the *feature names* with the allowed transform names, and
when every key happens to pass both asserts the subsequent
`set(x_categories + y_categories)` raises `TypeError` because
`y_categories` is then a list of lists.  `inputCats` is the
input-transformation processing at the top of the method: the default
catalog when no input transformations are given, the flat list as the
global category set, or the per-feature dictionary accumulated into
`append`. -/
def inputCats : Option TransChoice → List String × List (String × List String)
  | none => (DEFAULT_TRANSFORMATIONS, [])
  | some (.flat l) => (l, [])
  | some (.perFeature d) =>
    (DEFAULT_TRANSFORMATIONS, d.foldl (fun acc p => dinsert acc p.1 p.2) [])

/-- `OptimizePipeline.space`, continued: the output-transformation
processing and the dispatch into `spaceTail`. -/
def space (cfg : SpaceConfig) :
    Except PyErr (List Dim × Bool × Option String) :=
  let xres := inputCats cfg.input_transformations
  if (cfg.outputs_to_transform.getD []).isEmpty then
    spaceTail cfg xres.1 [] xres.2
  else
    match cfg.output_transformations with
    | .flat l =>
      if l.all (fun t => DEFAULT_Y_TRANFORMATIONS.contains t) then
        spaceTail cfg xres.1 l
          (cfg.output_features.foldl (fun acc out => dinsert acc out l) xres.2)
      else .error .assertionError
    | .perFeature d =>
      if d.isEmpty then spaceTail cfg xres.1 [] xres.2
      else if d.all (fun p => cfg.output_features.contains p.1)
          && d.all (fun p => DEFAULT_Y_TRANFORMATIONS.contains p.1) then
        .error .typeError
      else .error .assertionError

/-- The estimator resolution at the top of `parent_objective`
(`automl/main.py` lines 588-591): `suggestions['estimator']` when
estimator choice is being optimized (a `KeyError` if the suggestion
lacks the key), else the fixed `self._estimator`. -/
def resolveEstimator (optimize_estimator : Bool) (estimator : Option String)
    (suggestions : List (String × String)) : Except PyErr (Option String) :=
  if optimize_estimator then
    match (suggestions.find? (fun p => p.1 == "estimator")).map Prod.snd with
    | none => .error .keyError
    | some e => .ok (some e)
  else .ok estimator

/-- The instance state read by `_cook_transformations`: the columns of
the dataframe bound to `self.data_` by `fit`, and
`self.input_features` (from the model keyword arguments). -/
structure CookConfig where
  data_columns : List String
  input_features : List String
deriving DecidableEq, Repr

/-- Python `str.startswith`: a string prefix test, stated on the
underlying character lists so that it evaluates by `decide`. -/
def pyStartswith (s pre : String) : Bool := pre.data.isPrefixOf s.data

/-- The transform dictionary built for one (feature, method) pair
inside `_cook_transformations`: `log*` methods and `box-cox` get
`treat_negatives=True, replace_zeros=True`, `sqrt` gets only
`treat_negatives=True`. -/
def mkTransformSpec (feature method : String) : TransformSpec :=
  if pyStartswith method "log" then
    { method := method, features := [feature],
      treat_negatives := some true, replace_zeros := some true }
  else if method == "box-cox" then
    { method := method, features := [feature],
      treat_negatives := some true, replace_zeros := some true }
  else if method == "sqrt" then
    { method := method, features := [feature], treat_negatives := some true }
  else { method := method, features := [feature] }

/-- `OptimizePipeline._cook_transformations` (`automl/main.py` lines
696-728): iterate over the suggestion mapping in order; entries whose
key is not a column of `self.data_` are skipped, as are entries whose
method is the sentinel "none"; every other entry produces one spec,
routed to the x-list when the feature is in `self.input_features` and
to the y-list otherwise. -/
def _cook_transformations (cfg : CookConfig) :
    List (String × String) → List TransformSpec × List TransformSpec
  | [] => ([], [])
  | (feature, method) :: rest =>
    let r := _cook_transformations cfg rest
    if cfg.data_columns.contains feature then
      if method == "none" then r
      else
        let t := mkTransformSpec feature method
        if cfg.input_features.contains feature then (t :: r.1, r.2)
        else (r.1, t :: r.2)
    else r

/-- Specification helper: the keys of a container. -/
def ckeys (c : Container) : List FVal := c.map Prod.fst

/-- Specification helper (not part of the embedded source): the record
of the *last* parent iteration, counting from iteration number `it`,
whose model dictionary contains `m` and whose metric value rounds to
the key `k`.  `buildContainer` is proved to realize exactly this
last-write-wins dictionary semantics. -/
def lastKeyMatch (m : String) (hist : List FVal) :
    ℕ → List PipelineRecord → FVal → Option PipelineRecord
  | _, [], _ => none
  | it, r :: rest, k =>
    match lastKeyMatch m hist (it + 1) rest k with
    | some s => some s
    | none =>
      if recMatches m r && ((hist.get? (it - 1)).map FVal.round4 == some k)
      then some r else none

/-- Specification helper: the shared-key invariant of the Model Catalog
(§4.2 of the spec): the model list and the key sets of the estimator
space and of the child-iteration budgets are duplicate-free and
identical. -/
def catalogInv (st : CatalogState) : Prop :=
  st.models.Nodup ∧
  (st.estimator_space.map Prod.fst).Nodup ∧
  (st.child_iters.map Prod.fst).Nodup ∧
  (∀ n, n ∈ st.models ↔ n ∈ st.estimator_space.map Prod.fst) ∧
  (∀ n, n ∈ st.models ↔ n ∈ st.child_iters.map Prod.fst)

/-- Concrete metric-direction table used by the witnesses. -/
def wMt : String → String := fun n => if n == "r2" then "max" else "min"

/-- Concrete `mse` history used by the witnesses. -/
def wHist : List FVal := [.finite 3, .finite 1, .finite 2]

/-- Concrete `r2` history used by the witnesses. -/
def wHistR2 : List FVal := [.finite (1/2), .finite (9/10), .finite (7/10)]

/-- Concrete parent-trial records used by the witnesses. -/
def wRecA1 : PipelineRecord :=
  { x_transformation := [], y_transformation := [],
    model := [("A", [("n_estimators", 100)])], path := "iter1" }

/-- Second concrete record (a different model). -/
def wRecB : PipelineRecord :=
  { x_transformation := [], y_transformation := [],
    model := [("B", [])], path := "iter2" }

/-- Third concrete record (model `A` again). -/
def wRecA2 : PipelineRecord :=
  { x_transformation := [], y_transformation := [],
    model := [("A", [("n_estimators", 200)])], path := "iter3" }

/-- Concrete run ledger used by the witnesses. -/
def wLedger : RunLedger :=
  { metrics := [("mse", wHist), ("r2", wHistR2)],
    parent_suggestions := [wRecA1, wRecB, wRecA2] }

/-- Concrete catalog state used by the witnesses. -/
def wCatalog : CatalogState :=
  { models := ["A", "B"],
    estimator_space := [("A", ⟨[]⟩), ("B", ⟨["d1"]⟩)],
    child_iters := [("A", 25), ("B", 25)],
    child_iterations := 25 }

/-- Concrete space configuration with two models used by the
witnesses. -/
def cfgMulti : SpaceConfig :=
  { inputs_to_transform := ["x1", "x2"],
    input_transformations := none,
    outputs_to_transform := none,
    output_transformations := .flat DEFAULT_Y_TRANFORMATIONS,
    output_features := ["y"],
    models := ["ModelA", "ModelB"] }

/-- Concrete space configuration with a single model used by the
witnesses. -/
def cfgSingle : SpaceConfig :=
  { cfgMulti with models := ["ModelA"] }

/-- Concrete space configuration whose per-feature input override
contains a transform name outside every allowed set; used by the C9
counterexample. -/
def cfgC9 : SpaceConfig :=
  { inputs_to_transform := ["x1"],
    input_transformations := some (.perFeature [("x1", ["banana"])]),
    outputs_to_transform := none,
    output_transformations := .flat DEFAULT_Y_TRANFORMATIONS,
    output_features := ["y"],
    models := ["ModelA", "ModelB"] }

/-- Concrete space configuration with an invalid flat output
transformation list; used by the C9 witness. -/
def cfgBadOut : SpaceConfig :=
  { cfgMulti with
    outputs_to_transform := some ["y"],
    output_transformations := .flat ["zscore"] }

/-- Concrete cooking configuration used by the witnesses. -/
def wCook : CookConfig :=
  { data_columns := ["a", "b", "y"], input_features := ["a", "b"] }

/-- Concrete suggestion mapping used by the witnesses. -/
def wSugg : List (String × String) :=
  [("a", "log2"), ("b", "none"), ("y", "sqrt"), ("estimator", "ModelA")]

/-- Expected parent space for `cfgMulti`, used by the C7 witness. -/
def spMultiExpected : List Dim :=
  [{ name := "x1", categories := DEFAULT_TRANSFORMATIONS },
   { name := "x2", categories := DEFAULT_TRANSFORMATIONS },
   { name := "estimator", categories := ["ModelA", "ModelB"] }]

/-- Expected parent space for `cfgSingle`, used by the C7 witness. -/
def spSingleExpected : List Dim :=
  [{ name := "x1", categories := DEFAULT_TRANSFORMATIONS },
   { name := "x2", categories := DEFAULT_TRANSFORMATIONS }]

theorem FVal.fle_refl (a : FVal) : fle a a = true := by
  cases a <;> simp [fle]

theorem FVal.fle_trans {a b c : FVal} (h1 : fle a b = true)
    (h2 : fle b c = true) : fle a c = true := by
  cases a <;> cases b <;> cases c <;> (simp_all [fle]; try linarith)

theorem FVal.fle_total (a b : FVal) : fle a b = true ∨ fle b a = true := by
  cases a <;> cases b <;> (simp [fle]; try exact le_total _ _)

theorem FVal.minNN_eq_or (a b : FVal) : minNN a b = a ∨ minNN a b = b := by
  cases a <;> cases b <;> (simp [minNN]; try exact le_total _ _)

theorem FVal.maxNN_eq_or (a b : FVal) : maxNN a b = a ∨ maxNN a b = b := by
  cases a <;> cases b <;> (simp [maxNN]; try exact le_total _ _)

theorem FVal.fle_minNN_left (a b : FVal) (ha : a.isNan = false)
    (hb : b.isNan = false) : fle (minNN a b) a = true := by
  cases a <;> cases b <;> simp_all [minNN, fle, isNan]

theorem FVal.fle_minNN_right (a b : FVal) (ha : a.isNan = false)
    (hb : b.isNan = false) : fle (minNN a b) b = true := by
  cases a <;> cases b <;> simp_all [minNN, fle, isNan]

theorem FVal.fle_maxNN_left (a b : FVal) (ha : a.isNan = false)
    (hb : b.isNan = false) : fle a (maxNN a b) = true := by
  cases a <;> cases b <;> simp_all [maxNN, fle, isNan]

theorem FVal.fle_maxNN_right (a b : FVal) (ha : a.isNan = false)
    (hb : b.isNan = false) : fle b (maxNN a b) = true := by
  cases a <;> cases b <;> simp_all [maxNN, fle, isNan]

theorem FVal.minNN_isNan (a b : FVal) (ha : a.isNan = false)
    (hb : b.isNan = false) : (minNN a b).isNan = false := by
  cases a <;> cases b <;> simp_all [minNN, isNan]

theorem FVal.maxNN_isNan (a b : FVal) (ha : a.isNan = false)
    (hb : b.isNan = false) : (maxNN a b).isNan = false := by
  cases a <;> cases b <;> simp_all [maxNN, isNan]

/-- C2: `eval_model_manually` flips a maximize-type metric value to
`1.0 - value`, passes a minimize-type value through unchanged,
substitutes exactly `1.0` whenever the (possibly sign-flipped) value
is not finite, and therefore always returns a finite score. -/
theorem eval_model_manually_spec (v : FVal) (ty : String) :
    (ty = "max" →
      (v.oneMinus.isFinite = true →
        eval_model_manually v ty = v.oneMinus) ∧
      (v.oneMinus.isFinite = false →
        eval_model_manually v ty = FVal.finite 1)) ∧
    (ty = "min" →
      (v.isFinite = true → eval_model_manually v ty = v) ∧
      (v.isFinite = false → eval_model_manually v ty = FVal.finite 1)) ∧
    (eval_model_manually v ty).isFinite = true := by
  refine ⟨?_, ?_, ?_⟩
  · rintro rfl
    constructor <;> intro h <;> cases v <;>
      simp_all [eval_model_manually, FVal.oneMinus, FVal.isFinite]
  · rintro rfl
    constructor <;> intro h <;> cases v <;>
      simp_all [eval_model_manually, FVal.oneMinus, FVal.isFinite]
  · unfold eval_model_manually
    cases hb : (ty != "min") <;> cases v <;>
      simp_all [FVal.oneMinus, FVal.isFinite]

/-- Witness for C2 at concrete inputs. -/
theorem eval_model_manually_spec_witness :
    eval_model_manually (FVal.finite (1/4)) "max" = FVal.finite (3/4) ∧
    eval_model_manually (FVal.finite (1/4)) "min" = FVal.finite (1/4) ∧
    eval_model_manually FVal.nan "min" = FVal.finite 1 ∧
    eval_model_manually FVal.posInf "max" = FVal.finite 1 := by
  refine ⟨?_, ?_, ?_, ?_⟩
  · rw [((eval_model_manually_spec (FVal.finite (1/4)) "max").1 rfl).1 rfl]
    norm_num [FVal.oneMinus]
  · exact ((eval_model_manually_spec (FVal.finite (1/4)) "min").2.1 rfl).1 rfl
  · exact ((eval_model_manually_spec FVal.nan "min").2.1 rfl).2 rfl
  · exact ((eval_model_manually_spec FVal.posInf "max").1 rfl).2 rfl

theorem map_fst_eraseP {α : Type} (name : String) (l : List (String × α)) :
    (l.eraseP (fun p => p.1 == name)).map Prod.fst =
      (l.map Prod.fst).erase name := by
  induction l with
  | nil => rfl
  | cons x xs ih =>
    rw [List.eraseP_cons, List.map_cons, List.erase_cons]
    by_cases h : x.1 = name
    · simp [h]
    · have hb : (x.1 == name) = false := by simp [h]
      simp [hb, ih]

/-- C5: `add_model` fails with a duplicate-model (assertion) error when
the name is already present in any of the three catalog structures, and
the catalog is unchanged after such a failed call; on success the model
is appended to all three, the child-iteration budget defaulting to the
global `child_iterations`. -/
theorem add_model_spec (st : CatalogState) (name : String) (sp : SkoptSpace) :
    ((name ∈ st.models ∨ name ∈ st.estimator_space.map Prod.fst ∨
        name ∈ st.child_iters.map Prod.fst) →
      add_model st name sp = (st, some .assertionError)) ∧
    ((name ∉ st.models ∧ name ∉ st.estimator_space.map Prod.fst ∧
        name ∉ st.child_iters.map Prod.fst) →
      add_model st name sp =
        ({ models := st.models ++ [name],
           estimator_space := st.estimator_space ++ [(name, sp)],
           child_iters := st.child_iters ++ [(name, st.child_iterations)],
           child_iterations := st.child_iterations }, none)) := by
  have ha : (st.estimator_space.any (fun p => p.1 == name)) = true ↔
      name ∈ st.estimator_space.map Prod.fst := by
    rw [List.any_eq_true]
    constructor
    · rintro ⟨x, hx, hb⟩
      exact List.mem_map.mpr ⟨x, hx, by simpa using hb⟩
    · intro hmm
      obtain ⟨x, hx, he⟩ := List.mem_map.mp hmm
      exact ⟨x, hx, by simp [he]⟩
  have hc : (st.child_iters.any (fun p => p.1 == name)) = true ↔
      name ∈ st.child_iters.map Prod.fst := by
    rw [List.any_eq_true]
    constructor
    · rintro ⟨x, hx, hb⟩
      exact List.mem_map.mpr ⟨x, hx, by simpa using hb⟩
    · intro hmm
      obtain ⟨x, hx, he⟩ := List.mem_map.mp hmm
      exact ⟨x, hx, by simp [he]⟩
  have hm : (st.models.contains name) = true ↔ name ∈ st.models := by simp
  constructor
  · intro h
    unfold add_model
    split_ifs with h1 h2 h3
    · rfl
    · rfl
    · rfl
    · exfalso
      rcases h with h | h | h
      · exact h2 (hm.mpr h)
      · exact h1 (ha.mpr h)
      · exact h3 (hc.mpr h)
  · rintro ⟨h1, h2, h3⟩
    unfold add_model
    split_ifs with g1 g2 g3
    · exact absurd (ha.mp g1) h2
    · exact absurd (hm.mp g2) h1
    · exact absurd (hc.mp g3) h3
    · rfl

/-- Witness for C5: a duplicate call leaves the concrete catalog
unchanged; a fresh name is appended to all three structures. -/
theorem add_model_spec_witness :
    add_model wCatalog "A" ⟨["x"]⟩ = (wCatalog, some .assertionError) ∧
    add_model wCatalog "C" ⟨["x"]⟩ =
      ({ models := ["A", "B", "C"],
         estimator_space := [("A", ⟨[]⟩), ("B", ⟨["d1"]⟩), ("C", ⟨["x"]⟩)],
         child_iters := [("A", 25), ("B", 25), ("C", 25)],
         child_iterations := 25 }, none) := by
  constructor
  · exact (add_model_spec wCatalog "A" ⟨["x"]⟩).1 (Or.inl (by decide))
  · rw [(add_model_spec wCatalog "C" ⟨["x"]⟩).2
      ⟨by decide, by decide, by decide⟩]
    rfl

/-- C6: under the shared-key catalog invariant, `remove_model` on an
unregistered name fails with an unknown-model (`ValueError`) error
leaving all three structures untouched, and on a registered name
removes it from all three, all-or-nothing. -/
theorem remove_model_spec (st : CatalogState) (name : String)
    (hinv : catalogInv st) :
    (name ∉ st.models → remove_model st name = (st, some .valueError)) ∧
    (name ∈ st.models →
      remove_model st name =
        ({ models := st.models.erase name,
           estimator_space := st.estimator_space.eraseP (fun p => p.1 == name),
           child_iters := st.child_iters.eraseP (fun p => p.1 == name),
           child_iterations := st.child_iterations }, none) ∧
      name ∉ (remove_model st name).1.models ∧
      name ∉ (remove_model st name).1.estimator_space.map Prod.fst ∧
      name ∉ (remove_model st name).1.child_iters.map Prod.fst) := by
  obtain ⟨hnm, hne, hnc, hie, hic⟩ := hinv
  have ha : (st.estimator_space.any (fun p => p.1 == name)) = true ↔
      name ∈ st.estimator_space.map Prod.fst := by
    rw [List.any_eq_true]
    constructor
    · rintro ⟨x, hx, hb⟩
      exact List.mem_map.mpr ⟨x, hx, by simpa using hb⟩
    · intro hmm
      obtain ⟨x, hx, he⟩ := List.mem_map.mp hmm
      exact ⟨x, hx, by simp [he]⟩
  have hc : (st.child_iters.any (fun p => p.1 == name)) = true ↔
      name ∈ st.child_iters.map Prod.fst := by
    rw [List.any_eq_true]
    constructor
    · rintro ⟨x, hx, hb⟩
      exact List.mem_map.mpr ⟨x, hx, by simpa using hb⟩
    · intro hmm
      obtain ⟨x, hx, he⟩ := List.mem_map.mp hmm
      exact ⟨x, hx, by simp [he]⟩
  constructor
  · intro h
    unfold remove_model
    have : (st.models.contains name) = false := by simp [h]
    rw [this]
    simp
  · intro h
    have heq : remove_model st name =
        ({ models := st.models.erase name,
           estimator_space := st.estimator_space.eraseP (fun p => p.1 == name),
           child_iters := st.child_iters.eraseP (fun p => p.1 == name),
           child_iterations := st.child_iterations }, none) := by
      unfold remove_model
      have h1 : (st.models.contains name) = true := by simp [h]
      rw [h1]
      have h2 : (st.estimator_space.any (fun p => p.1 == name)) = true :=
        ha.mpr ((hie name).mp h)
      have h3 : (st.child_iters.any (fun p => p.1 == name)) = true :=
        hc.mpr ((hic name).mp h)
      simp only [h2, h3]
      rfl
    refine ⟨heq, ?_, ?_, ?_⟩
    · rw [heq]
      exact hnm.not_mem_erase
    · rw [heq]
      simpa [map_fst_eraseP] using hne.not_mem_erase
    · rw [heq]
      simpa [map_fst_eraseP] using hnc.not_mem_erase

/-- Witness for C6 on the concrete catalog. -/
theorem remove_model_spec_witness :
    remove_model wCatalog "C" = (wCatalog, some .valueError) ∧
    remove_model wCatalog "A" =
      ({ models := ["B"], estimator_space := [("B", ⟨["d1"]⟩)],
         child_iters := [("B", 25)], child_iterations := 25 }, none) := by
  have hinv : catalogInv wCatalog :=
    ⟨by decide, by decide, by decide, fun _ => Iff.rfl, fun _ => Iff.rfl⟩
  constructor
  · exact (remove_model_spec wCatalog "C" hinv).1 (by decide)
  · rw [((remove_model_spec wCatalog "A" hinv).2 (by decide)).1]
    rfl

theorem mkTransformSpec_method (f m : String) :
    (mkTransformSpec f m).method = m := by
  unfold mkTransformSpec
  split_ifs <;> rfl

theorem mkTransformSpec_features (f m : String) :
    (mkTransformSpec f m).features = [f] := by
  unfold mkTransformSpec
  split_ifs <;> rfl

theorem mkTransformSpec_logFamily (f m : String)
    (h : pyStartswith m "log" = true ∨ m = "box-cox") :
    (mkTransformSpec f m).treat_negatives = some true ∧
    (mkTransformSpec f m).replace_zeros = some true := by
  unfold mkTransformSpec
  split_ifs with h1 h2 h3 <;>
    first
    | exact ⟨rfl, rfl⟩
    | (exfalso
       rcases h with h | h
       · exact h1 h
       · exact h2 (by simp [h]))

theorem mkTransformSpec_sqrt (f m : String) (h : m = "sqrt") :
    (mkTransformSpec f m).treat_negatives = some true ∧
    (mkTransformSpec f m).replace_zeros = none := by
  subst h
  exact ⟨rfl, rfl⟩

theorem cook_cons (cfg : CookConfig) (f m : String)
    (rest : List (String × String)) :
    _cook_transformations cfg ((f, m) :: rest) =
      if cfg.data_columns.contains f then
        if m == "none" then _cook_transformations cfg rest
        else if cfg.input_features.contains f then
          (mkTransformSpec f m :: (_cook_transformations cfg rest).1,
           (_cook_transformations cfg rest).2)
        else ((_cook_transformations cfg rest).1,
              mkTransformSpec f m :: (_cook_transformations cfg rest).2)
      else _cook_transformations cfg rest := rfl

theorem cook_mem_x (cfg : CookConfig) :
    ∀ (s : List (String × String)) (t : TransformSpec),
      t ∈ (_cook_transformations cfg s).1 →
      ∃ f m, (f, m) ∈ s ∧ cfg.data_columns.contains f = true ∧
        cfg.input_features.contains f = true ∧ m ≠ "none" ∧
        t = mkTransformSpec f m := by
  intro s
  induction s with
  | nil => intro t ht; simp [_cook_transformations] at ht
  | cons p rest ih =>
    intro t ht
    obtain ⟨f0, m0⟩ := p
    rw [cook_cons] at ht
    split_ifs at ht with h1 h2 h3
    · obtain ⟨f, m, hmem, h⟩ := ih t ht
      exact ⟨f, m, List.mem_cons_of_mem _ hmem, h⟩
    · dsimp only at ht
      rcases List.mem_cons.mp ht with rfl | hmem
      · refine ⟨f0, m0, List.mem_cons_self _ _, h1, h3, ?_, rfl⟩
        intro hn
        simp [hn] at h2
      · obtain ⟨f, m, hmem2, h⟩ := ih t hmem
        exact ⟨f, m, List.mem_cons_of_mem _ hmem2, h⟩
    · dsimp only at ht
      obtain ⟨f, m, hmem2, h⟩ := ih t ht
      exact ⟨f, m, List.mem_cons_of_mem _ hmem2, h⟩
    · obtain ⟨f, m, hmem2, h⟩ := ih t ht
      exact ⟨f, m, List.mem_cons_of_mem _ hmem2, h⟩

theorem cook_mem_y (cfg : CookConfig) :
    ∀ (s : List (String × String)) (t : TransformSpec),
      t ∈ (_cook_transformations cfg s).2 →
      ∃ f m, (f, m) ∈ s ∧ cfg.data_columns.contains f = true ∧
        cfg.input_features.contains f = false ∧ m ≠ "none" ∧
        t = mkTransformSpec f m := by
  intro s
  induction s with
  | nil => intro t ht; simp [_cook_transformations] at ht
  | cons p rest ih =>
    intro t ht
    obtain ⟨f0, m0⟩ := p
    rw [cook_cons] at ht
    split_ifs at ht with h1 h2 h3
    · obtain ⟨f, m, hmem, h⟩ := ih t ht
      exact ⟨f, m, List.mem_cons_of_mem _ hmem, h⟩
    · dsimp only at ht
      obtain ⟨f, m, hmem2, h⟩ := ih t ht
      exact ⟨f, m, List.mem_cons_of_mem _ hmem2, h⟩
    · dsimp only at ht
      rcases List.mem_cons.mp ht with rfl | hmem
      · refine ⟨f0, m0, List.mem_cons_self _ _, h1, by simpa using h3, ?_, rfl⟩
        intro hn
        simp [hn] at h2
      · obtain ⟨f, m, hmem2, h⟩ := ih t hmem
        exact ⟨f, m, List.mem_cons_of_mem _ hmem2, h⟩
    · obtain ⟨f, m, hmem2, h⟩ := ih t ht
      exact ⟨f, m, List.mem_cons_of_mem _ hmem2, h⟩

/-- C8: `_cook_transformations` emits no spec for a "none" method; every
emitted spec of the `log` family or `box-cox` carries
`treat_negatives=True` and `replace_zeros=True`; `sqrt` carries
`treat_negatives=True` and no `replace_zeros` key; specs are routed to
the x-list exactly when the feature is an input feature; and the result
is a deterministic function of the suggestion mapping and the instance
state. -/
theorem cook_transformations_spec (cfg : CookConfig)
    (s : List (String × String)) :
    (∀ t, (t ∈ (_cook_transformations cfg s).1 ∨
           t ∈ (_cook_transformations cfg s).2) →
      t.method ≠ "none" ∧
      ((pyStartswith t.method "log" = true ∨ t.method = "box-cox") →
        t.treat_negatives = some true ∧ t.replace_zeros = some true) ∧
      (t.method = "sqrt" →
        t.treat_negatives = some true ∧ t.replace_zeros = none)) ∧
    (∀ t ∈ (_cook_transformations cfg s).1,
      ∃ f, t.features = [f] ∧ f ∈ cfg.input_features) ∧
    (∀ t ∈ (_cook_transformations cfg s).2,
      ∃ f, t.features = [f] ∧ f ∉ cfg.input_features) ∧
    (∀ s2, s2 = s → _cook_transformations cfg s2 = _cook_transformations cfg s) := by
  refine ⟨?_, ?_, ?_, ?_⟩
  · intro t ht
    have hspec : ∃ f m, m ≠ "none" ∧ t = mkTransformSpec f m := by
      rcases ht with ht | ht
      · obtain ⟨f, m, _, _, _, hm, he⟩ := cook_mem_x cfg s t ht
        exact ⟨f, m, hm, he⟩
      · obtain ⟨f, m, _, _, _, hm, he⟩ := cook_mem_y cfg s t ht
        exact ⟨f, m, hm, he⟩
    obtain ⟨f, m, hm, rfl⟩ := hspec
    rw [mkTransformSpec_method]
    exact ⟨hm, fun h => mkTransformSpec_logFamily f m h,
      fun h => mkTransformSpec_sqrt f m h⟩
  · intro t ht
    obtain ⟨f, m, _, _, hf, _, rfl⟩ := cook_mem_x cfg s t ht
    exact ⟨f, mkTransformSpec_features f m, by simpa using hf⟩
  · intro t ht
    obtain ⟨f, m, _, _, hf, _, rfl⟩ := cook_mem_y cfg s t ht
    refine ⟨f, mkTransformSpec_features f m, ?_⟩
    intro hmem
    simp [hmem] at hf
  · intro s2 h
    rw [h]

/-- Witness for C8 on a concrete suggestion mapping. -/
theorem cook_transformations_spec_witness :
    ((mkTransformSpec "a" "log2").treat_negatives = some true ∧
     (mkTransformSpec "a" "log2").replace_zeros = some true) ∧
    (∃ f, (mkTransformSpec "y" "sqrt").features = [f] ∧
      f ∉ wCook.input_features) := by
  constructor
  · exact ((cook_transformations_spec wCook wSugg).1 (mkTransformSpec "a" "log2")
      (Or.inl (by decide))).2.1 (Or.inl (by decide))
  · exact (cook_transformations_spec wCook wSugg).2.2.1
      (mkTransformSpec "y" "sqrt") (by decide)

/-- C10: an entry whose key is not a data column produces no spec (the
output equals the output on the column-filtered suggestions); every
emitted spec's feature is a column of the data; in particular, when the
data has no column literally named "estimator", no emitted spec has
feature "estimator". -/
theorem cook_only_data_columns (cfg : CookConfig)
    (s : List (String × String)) :
    (_cook_transformations cfg s =
      _cook_transformations cfg
        (s.filter (fun p => cfg.data_columns.contains p.1))) ∧
    (∀ t, (t ∈ (_cook_transformations cfg s).1 ∨
           t ∈ (_cook_transformations cfg s).2) →
      ∃ f, t.features = [f] ∧ f ∈ cfg.data_columns) ∧
    ("estimator" ∉ cfg.data_columns →
      ∀ t, (t ∈ (_cook_transformations cfg s).1 ∨
            t ∈ (_cook_transformations cfg s).2) →
        t.features ≠ ["estimator"]) := by
  have hfilter : ∀ s0 : List (String × String),
      _cook_transformations cfg s0 =
        _cook_transformations cfg
          (s0.filter (fun p => cfg.data_columns.contains p.1)) := by
    intro s0
    induction s0 with
    | nil => rfl
    | cons p rest ih =>
      obtain ⟨f0, m0⟩ := p
      rw [List.filter_cons]
      by_cases hcol : cfg.data_columns.contains f0 = true
      · simp only [hcol, if_true]
        rw [cook_cons, cook_cons, if_pos hcol, if_pos hcol, ih]
      · have hcol2 : cfg.data_columns.contains f0 = false := by
          simpa using hcol
        have hcol3 : ¬(cfg.data_columns.contains f0 = true) := by
          rw [hcol2]
          exact Bool.false_ne_true
        simp only [hcol2, Bool.false_eq_true, if_false]
        rw [cook_cons, if_neg hcol3, ih]
  have hmem : ∀ t, (t ∈ (_cook_transformations cfg s).1 ∨
      t ∈ (_cook_transformations cfg s).2) →
      ∃ f, t.features = [f] ∧ f ∈ cfg.data_columns := by
    intro t ht
    rcases ht with ht | ht
    · obtain ⟨f, m, _, hf, _, _, rfl⟩ := cook_mem_x cfg s t ht
      exact ⟨f, mkTransformSpec_features f m, by simpa using hf⟩
    · obtain ⟨f, m, _, hf, _, _, rfl⟩ := cook_mem_y cfg s t ht
      exact ⟨f, mkTransformSpec_features f m, by simpa using hf⟩
  refine ⟨hfilter s, hmem, ?_⟩
  · intro hest t ht hfeat
    obtain ⟨f, hf, hfc⟩ := hmem t ht
    rw [hfeat] at hf
    cases hf
    exact hest hfc

/-- Witness for C10 on the concrete suggestion mapping, whose
"estimator" entry names a model, not a data column. -/
theorem cook_only_data_columns_witness :
    _cook_transformations wCook wSugg =
      _cook_transformations wCook
        (wSugg.filter (fun p => wCook.data_columns.contains p.1)) ∧
    (∀ t, (t ∈ (_cook_transformations wCook wSugg).1 ∨
           t ∈ (_cook_transformations wCook wSugg).2) →
      t.features ≠ ["estimator"]) := by
  exact ⟨(cook_only_data_columns wCook wSugg).1,
    (cook_only_data_columns wCook wSugg).2.2 (by decide)⟩

theorem make_space_no_estimator (f c : List String)
    (a : List (String × List String)) (h : "estimator" ∉ f) :
    (make_space f c a).filter (fun d => d.name == "estimator") = [] := by
  rw [List.filter_eq_nil_iff]
  intro d hd
  simp only [make_space, List.mem_map] at hd
  obtain ⟨x, hx, rfl⟩ := hd
  simp only [beq_iff_eq]
  intro he
  exact h (by rwa [he] at hx)

theorem space_ok_exists (cfg : SpaceConfig) (r : List Dim × Bool × Option String)
    (h : space cfg = .ok r) :
    ∃ xc yc ap, spaceTail cfg xc yc ap = .ok r := by
  unfold space at h
  repeat' split at h
  all_goals first | exact ⟨_, _, _, h⟩ | cases h

/-- C7: `space()` appends exactly one categorical dimension named
"estimator" over the current model list when more than one model is
registered; with exactly one registered model no such dimension is
added, estimator-choice optimization is disabled and the single model
is resolved unconditionally for every parent trial. -/
theorem space_estimator_spec (cfg : SpaceConfig)
    (hin : "estimator" ∉ cfg.inputs_to_transform)
    (hout : "estimator" ∉ cfg.outputs_to_transform.getD [])
    (sp : List Dim) (optEst : Bool) (est : Option String)
    (h : space cfg = .ok (sp, optEst, est)) :
    (cfg.models.length > 1 →
      (sp.filter (fun d => d.name == "estimator")).length = 1 ∧
      sp.getLast? = some { name := "estimator", categories := cfg.models } ∧
      optEst = true) ∧
    (cfg.models.length = 1 →
      ∃ m, cfg.models = [m] ∧
        (sp.filter (fun d => d.name == "estimator")).length = 0 ∧
        optEst = false ∧ est = some m ∧
        ∀ sugg, resolveEstimator optEst est sugg = .ok (some m)) := by
  obtain ⟨xc, yc, ap, ht⟩ := space_ok_exists cfg _ h
  have hfeat : "estimator" ∉
      cfg.inputs_to_transform ++ cfg.outputs_to_transform.getD [] := by
    simp only [List.mem_append]
    rintro (hc | hc)
    · exact hin hc
    · exact hout hc
  have hfl := make_space_no_estimator
    (cfg.inputs_to_transform ++ cfg.outputs_to_transform.getD [])
    ((xc ++ yc).dedup) ap hfeat
  unfold spaceTail at ht
  by_cases hlen : cfg.models.length > 1
  · rw [if_pos hlen] at ht
    simp only [Except.ok.injEq, Prod.mk.injEq] at ht
    obtain ⟨hsp, hopt, hest⟩ := ht
    constructor
    · intro _
      refine ⟨?_, ?_, hopt.symm⟩
      · rw [← hsp, List.filter_append, hfl]
        simp
      · rw [← hsp, List.getLast?_concat]
    · intro h1
      omega
  · rw [if_neg hlen] at ht
    rcases hms : cfg.models with _ | ⟨m, rest⟩
    · rw [hms] at ht
      cases ht
    · rw [hms] at ht
      simp only [Except.ok.injEq, Prod.mk.injEq] at ht
      obtain ⟨hsp, hopt, hest⟩ := ht
      constructor
      · intro h1
        rw [hms] at hlen
        exact absurd h1 hlen
      · intro h1
        have hrest : rest = [] := by
          simpa using h1
        subst hrest
        refine ⟨m, rfl, ?_, hopt.symm, hest.symm, ?_⟩
        · rw [← hsp, hfl]
          rfl
        · intro sugg
          rw [← hopt, ← hest]
          rfl

/-- Witness for C7 on concrete two-model and one-model
configurations. -/
theorem space_estimator_spec_witness :
    (spMultiExpected.filter (fun d => d.name == "estimator")).length = 1 ∧
    spMultiExpected.getLast? =
      some { name := "estimator", categories := cfgMulti.models } ∧
    cfgSingle.models = ["ModelA"] ∧
    (spSingleExpected.filter (fun d => d.name == "estimator")).length = 0 ∧
    (∀ sugg, resolveEstimator false (some "ModelA") sugg =
      .ok (some "ModelA")) := by
  have h1 : space cfgMulti = .ok (spMultiExpected, true, none) := by rfl
  have h2 : space cfgSingle = .ok (spSingleExpected, false, some "ModelA") := by
    rfl
  have t1 := (space_estimator_spec cfgMulti (by decide) (by decide)
    spMultiExpected true none h1).1 (by decide)
  have t2 := (space_estimator_spec cfgSingle (by decide) (by decide)
    spSingleExpected false (some "ModelA") h2).2 (by decide)
  obtain ⟨m, hm, hf, _, hest, hres⟩ := t2
  have hma : m = "ModelA" := by
    have := hest
    simp only [Option.some.injEq] at this
    exact this.symm
  subst hma
  exact ⟨t1.1, t1.2.1, hm, hf, hres⟩

/-- C9 counterexample: a caller-supplied per-feature input override
containing the transform name "banana" — outside every allowed
transform set — does not make search-space construction fail, contrary
to the claim. -/
theorem space_c9_counterexample :
    "banana" ∉ DEFAULT_TRANSFORMATIONS ∧
    "banana" ∉ DEFAULT_Y_TRANFORMATIONS ∧
    ∃ r, space cfgC9 = .ok r := by
  refine ⟨by decide, by decide, ⟨_, rfl⟩⟩

/-- C9 amended: only output transformations are validated.  A truthy
`outputs_to_transform` with a flat output transformation list fails
with an invalid-transform (assertion) error whenever the list contains
a name outside the output-safe subset; a nonempty per-output dictionary
always fails (the source checks the dictionary keys against the
output-safe subset, and when every key passes, the subsequent
`set(x_categories + y_categories)` raises `TypeError`); caller-supplied
per-feature input override lists are never validated, so an input
override containing an invalid name does not cause an error. -/
theorem space_transform_validation_amended (cfg : SpaceConfig) :
    (∀ l t, (cfg.outputs_to_transform.getD []).isEmpty = false →
      cfg.output_transformations = .flat l →
      t ∈ l → t ∉ DEFAULT_Y_TRANFORMATIONS →
      space cfg = .error .assertionError) ∧
    (∀ d, (cfg.outputs_to_transform.getD []).isEmpty = false →
      cfg.output_transformations = .perFeature d → d ≠ [] →
      ∃ e, space cfg = .error e) ∧
    (∀ d, cfg.input_transformations = some (.perFeature d) →
      (cfg.outputs_to_transform.getD []).isEmpty = true →
      cfg.models ≠ [] →
      ∃ r, space cfg = .ok r) := by
  have hone : ∀ xc yc ap, cfg.models ≠ [] →
      ∃ r, spaceTail cfg xc yc ap = .ok r := by
    intro xc yc ap hm
    unfold spaceTail
    by_cases hlen : cfg.models.length > 1
    · rw [if_pos hlen]
      exact ⟨_, rfl⟩
    · rw [if_neg hlen]
      rcases hms : cfg.models with _ | ⟨m, rest⟩
      · exact absurd hms hm
      · exact ⟨_, rfl⟩
  refine ⟨?_, ?_, ?_⟩
  · intro l t hoe hflat hmem hbad
    simp only [space]
    rw [if_neg (by rw [hoe]; exact Bool.false_ne_true)]
    simp only [hflat]
    have hall : (l.all (fun t => DEFAULT_Y_TRANFORMATIONS.contains t)) = false := by
      rw [List.all_eq_false]
      exact ⟨t, hmem, by simp [hbad]⟩
    rw [if_neg (by rw [hall]; exact Bool.false_ne_true)]
  · intro d hoe hpf hd
    simp only [space]
    rw [if_neg (by rw [hoe]; exact Bool.false_ne_true)]
    simp only [hpf]
    rw [if_neg (by simp [hd])]
    by_cases hc : (d.all (fun p => cfg.output_features.contains p.1)
        && d.all (fun p => DEFAULT_Y_TRANFORMATIONS.contains p.1)) = true
    · rw [if_pos hc]
      exact ⟨_, rfl⟩
    · rw [if_neg hc]
      exact ⟨_, rfl⟩
  · intro d _hin hoe hm
    simp only [space]
    rw [if_pos (by rw [hoe])]
    exact hone _ _ _ hm

/-- Witness for the amended C9 on concrete configurations. -/
theorem space_transform_validation_amended_witness :
    space cfgBadOut = .error .assertionError ∧
    (∃ r, space cfgC9 = .ok r) := by
  constructor
  · exact (space_transform_validation_amended cfgBadOut).1 ["zscore"] "zscore"
      (by decide) rfl (by decide) (by decide)
  · exact (space_transform_validation_amended cfgC9).2.2 [("x1", ["banana"])]
      rfl (by decide) (by decide)

theorem foldl_minNN_mem (xs : List FVal) (x : FVal) :
    xs.foldl FVal.minNN x ∈ x :: xs := by
  induction xs generalizing x with
  | nil => simp
  | cons y ys ih =>
    have h := ih (FVal.minNN x y)
    rw [List.foldl_cons]
    rcases List.mem_cons.mp h with h1 | h1
    · rcases FVal.minNN_eq_or x y with h2 | h2
      · rw [h1, h2]
        exact List.mem_cons_self _ _
      · rw [h1, h2]
        exact List.mem_cons_of_mem _ (List.mem_cons_self _ _)
    · exact List.mem_cons_of_mem _ (List.mem_cons_of_mem _ h1)

theorem foldl_maxNN_mem (xs : List FVal) (x : FVal) :
    xs.foldl FVal.maxNN x ∈ x :: xs := by
  induction xs generalizing x with
  | nil => simp
  | cons y ys ih =>
    have h := ih (FVal.maxNN x y)
    rw [List.foldl_cons]
    rcases List.mem_cons.mp h with h1 | h1
    · rcases FVal.maxNN_eq_or x y with h2 | h2
      · rw [h1, h2]
        exact List.mem_cons_self _ _
      · rw [h1, h2]
        exact List.mem_cons_of_mem _ (List.mem_cons_self _ _)
    · exact List.mem_cons_of_mem _ (List.mem_cons_of_mem _ h1)

theorem foldl_minNN_le (xs : List FVal) (x : FVal) (hx : x.isNan = false)
    (hxs : ∀ v ∈ xs, v.isNan = false) :
    FVal.fle (xs.foldl FVal.minNN x) x = true ∧
    ∀ v ∈ xs, FVal.fle (xs.foldl FVal.minNN x) v = true := by
  induction xs generalizing x with
  | nil => exact ⟨FVal.fle_refl x, by simp⟩
  | cons y ys ih =>
    have hy : y.isNan = false := hxs y (List.mem_cons_self _ _)
    have hys : ∀ v ∈ ys, v.isNan = false :=
      fun v hv => hxs v (List.mem_cons_of_mem _ hv)
    have hmin : (FVal.minNN x y).isNan = false := FVal.minNN_isNan x y hx hy
    obtain ⟨h1, h2⟩ := ih (FVal.minNN x y) hmin hys
    rw [List.foldl_cons]
    refine ⟨FVal.fle_trans h1 (FVal.fle_minNN_left x y hx hy), ?_⟩
    intro v hv
    rcases List.mem_cons.mp hv with rfl | hv2
    · exact FVal.fle_trans h1 (FVal.fle_minNN_right x v hx hy)
    · exact h2 v hv2

theorem foldl_maxNN_ge (xs : List FVal) (x : FVal) (hx : x.isNan = false)
    (hxs : ∀ v ∈ xs, v.isNan = false) :
    FVal.fle x (xs.foldl FVal.maxNN x) = true ∧
    ∀ v ∈ xs, FVal.fle v (xs.foldl FVal.maxNN x) = true := by
  induction xs generalizing x with
  | nil => exact ⟨FVal.fle_refl x, by simp⟩
  | cons y ys ih =>
    have hy : y.isNan = false := hxs y (List.mem_cons_self _ _)
    have hys : ∀ v ∈ ys, v.isNan = false :=
      fun v hv => hxs v (List.mem_cons_of_mem _ hv)
    have hmax : (FVal.maxNN x y).isNan = false := FVal.maxNN_isNan x y hx hy
    obtain ⟨h1, h2⟩ := ih (FVal.maxNN x y) hmax hys
    rw [List.foldl_cons]
    refine ⟨FVal.fle_trans (FVal.fle_maxNN_left x y hx hy) h1, ?_⟩
    intro v hv
    rcases List.mem_cons.mp hv with rfl | hv2
    · exact FVal.fle_trans (FVal.fle_maxNN_right x v hx hy) h1
    · exact h2 v hv2

theorem nanmin_argmin_spec (x : FVal) (xs : List FVal)
    (hnn : ∀ v ∈ x :: xs, v.isNan = false) :
    ∃ b i0, nanmin (x :: xs) = some b ∧ nanargmin (x :: xs) = some i0 ∧
      b ∈ x :: xs ∧ (∀ v ∈ x :: xs, FVal.fle b v = true) ∧
      i0 < (x :: xs).length ∧ (x :: xs).get? i0 = some b ∧
      ∀ j < i0, (x :: xs).get? j ≠ some b := by
  have hx : x.isNan = false := hnn x (List.mem_cons_self _ _)
  have hxs : ∀ v ∈ xs, v.isNan = false :=
    fun v hv => hnn v (List.mem_cons_of_mem _ hv)
  have hfilter : (x :: xs).filter (fun v => !v.isNan) = x :: xs :=
    List.filter_eq_self.mpr (fun v hv => by simp [hnn v hv])
  have hmem := foldl_minNN_mem xs x
  have hmin : nanmin (x :: xs) = some (xs.foldl FVal.minNN x) := by
    unfold nanmin
    rw [hfilter]
    rfl
  have hsome : (x :: xs).findIdx? (fun v => v == xs.foldl FVal.minNN x) ≠
      none := by
    intro hnone
    have := List.findIdx?_eq_none_iff.mp hnone _ hmem
    simp at this
  obtain ⟨i0, hi0⟩ := Option.ne_none_iff_exists'.mp hsome
  have harg : nanargmin (x :: xs) = some i0 := by
    unfold nanargmin
    rw [hfilter]
    exact hi0
  obtain ⟨hlen0, hp, hearlier⟩ := List.findIdx?_eq_some_iff_getElem.mp hi0
  obtain ⟨hb1, hb2⟩ := foldl_minNN_le xs x hx hxs
  refine ⟨xs.foldl FVal.minNN x, i0, hmin, harg, hmem, ?_, hlen0, ?_, ?_⟩
  · intro v hv
    rcases List.mem_cons.mp hv with rfl | hv2
    · exact hb1
    · exact hb2 v hv2
  · have hg : (x :: xs)[i0] = xs.foldl FVal.minNN x := by
      exact beq_iff_eq.mp hp
    rw [List.get?_eq_getElem?, List.getElem?_eq_getElem hlen0, hg]
  · intro j hj hget
    have hjlen : j < (x :: xs).length := Nat.lt_trans hj hlen0
    have := hearlier j hj
    rw [List.get?_eq_getElem?, List.getElem?_eq_getElem hjlen] at hget
    have hgj : (x :: xs)[j] = xs.foldl FVal.minNN x := by
      injection hget
    rw [hgj] at this
    simp at this

theorem nanmax_argmax_spec (x : FVal) (xs : List FVal)
    (hnn : ∀ v ∈ x :: xs, v.isNan = false) :
    ∃ b i0, nanmax (x :: xs) = some b ∧ nanargmax (x :: xs) = some i0 ∧
      b ∈ x :: xs ∧ (∀ v ∈ x :: xs, FVal.fle v b = true) ∧
      i0 < (x :: xs).length ∧ (x :: xs).get? i0 = some b ∧
      ∀ j < i0, (x :: xs).get? j ≠ some b := by
  have hx : x.isNan = false := hnn x (List.mem_cons_self _ _)
  have hxs : ∀ v ∈ xs, v.isNan = false :=
    fun v hv => hnn v (List.mem_cons_of_mem _ hv)
  have hfilter : (x :: xs).filter (fun v => !v.isNan) = x :: xs :=
    List.filter_eq_self.mpr (fun v hv => by simp [hnn v hv])
  have hmem := foldl_maxNN_mem xs x
  have hmax : nanmax (x :: xs) = some (xs.foldl FVal.maxNN x) := by
    unfold nanmax
    rw [hfilter]
    rfl
  have hsome : (x :: xs).findIdx? (fun v => v == xs.foldl FVal.maxNN x) ≠
      none := by
    intro hnone
    have := List.findIdx?_eq_none_iff.mp hnone _ hmem
    simp at this
  obtain ⟨i0, hi0⟩ := Option.ne_none_iff_exists'.mp hsome
  have harg : nanargmax (x :: xs) = some i0 := by
    unfold nanargmax
    rw [hfilter]
    exact hi0
  obtain ⟨hlen0, hp, hearlier⟩ := List.findIdx?_eq_some_iff_getElem.mp hi0
  obtain ⟨hb1, hb2⟩ := foldl_maxNN_ge xs x hx hxs
  refine ⟨xs.foldl FVal.maxNN x, i0, hmax, harg, hmem, ?_, hlen0, ?_, ?_⟩
  · intro v hv
    rcases List.mem_cons.mp hv with rfl | hv2
    · exact hb1
    · exact hb2 v hv2
  · have hg : (x :: xs)[i0] = xs.foldl FVal.maxNN x := by
      exact beq_iff_eq.mp hp
    rw [List.get?_eq_getElem?, List.getElem?_eq_getElem hlen0, hg]
  · intro j hj hget
    have hjlen : j < (x :: xs).length := Nat.lt_trans hj hlen0
    have := hearlier j hj
    rw [List.get?_eq_getElem?, List.getElem?_eq_getElem hjlen] at hget
    have hgj : (x :: xs)[j] = xs.foldl FVal.maxNN x := by
      injection hget
    rw [hgj] at this
    simp at this

/-- C3: `get_best_metric` raises `MetricNotMonitored` when the metric
has no history, and otherwise returns the minimum of the recorded
values when the metric direction is "min" and the maximum when it is
"max"; `get_best_metric_iteration` returns a 1-based iteration index
that is a key of the parent-trial ledger, at which the recorded value
equals `get_best_metric`, ties broken by the earliest such
iteration. -/
theorem get_best_metric_spec (mt : String → String) (st : RunLedger)
    (metric_name : String) :
    (lookupMetric st metric_name = none →
      get_best_metric mt st metric_name = .error .metricNotMonitored ∧
      get_best_metric_iteration mt st metric_name =
        .error .metricNotMonitored) ∧
    (∀ hist, lookupMetric st metric_name = some hist → hist ≠ [] →
      (∀ v ∈ hist, v.isNan = false) →
      hist.length = st.parent_suggestions.length →
      ∃ b i, get_best_metric mt st metric_name = .ok b ∧
        get_best_metric_iteration mt st metric_name = .ok i ∧
        b ∈ hist ∧
        (mt metric_name = "min" → ∀ v ∈ hist, FVal.fle b v = true) ∧
        (mt metric_name = "max" → ∀ v ∈ hist, FVal.fle v b = true) ∧
        1 ≤ i ∧ i ≤ st.parent_suggestions.length ∧
        hist.get? (i - 1) = some b ∧
        ∀ j, 1 ≤ j → j < i → hist.get? (j - 1) ≠ some b) := by
  constructor
  · intro h
    unfold get_best_metric get_best_metric_iteration
    rw [h]
    exact ⟨rfl, rfl⟩
  · intro hist hm hne hnn hlen
    rcases hist with _ | ⟨x, xs⟩
    · exact absurd rfl hne
    by_cases hdir : (mt metric_name == "min") = true
    · obtain ⟨b, i0, hmin, harg, hbm, hble, hi0len, hget, hearlier⟩ :=
        nanmin_argmin_spec x xs hnn
      refine ⟨b, i0 + 1, ?_, ?_, hbm, ?_, ?_, ?_, ?_, ?_, ?_⟩
      · unfold get_best_metric
        rw [hm]
        simp only [hdir, if_true, hmin]
      · unfold get_best_metric_iteration
        rw [hm]
        simp only [hdir, if_true, harg]
      · intro _
        exact hble
      · intro hmax
        rw [hmax] at hdir
        simp at hdir
      · omega
      · rw [List.length_cons] at hi0len hlen
        omega
      · simpa using hget
      · intro j h1 h2 hj
        exact hearlier (j - 1) (by omega) hj
    · obtain ⟨b, i0, hmax, harg, hbm, hble, hi0len, hget, hearlier⟩ :=
        nanmax_argmax_spec x xs hnn
      have hdir2 : (mt metric_name == "min") = false := by
        simpa using hdir
      refine ⟨b, i0 + 1, ?_, ?_, hbm, ?_, ?_, ?_, ?_, ?_, ?_⟩
      · unfold get_best_metric
        rw [hm]
        simp only [hdir2, Bool.false_eq_true, if_false, hmax]
      · unfold get_best_metric_iteration
        rw [hm]
        simp only [hdir2, Bool.false_eq_true, if_false, harg]
      · intro hmin'
        rw [hmin'] at hdir
        simp at hdir
      · intro _
        exact hble
      · omega
      · rw [List.length_cons] at hi0len hlen
        omega
      · simpa using hget
      · intro j h1 h2 hj
        exact hearlier (j - 1) (by omega) hj

/-- Witness for C3 on the concrete ledger (metric `mse`, direction
"min": best value 1 at iteration 2). -/
theorem get_best_metric_spec_witness :
    ∃ b i, get_best_metric wMt wLedger "mse" = .ok b ∧
      get_best_metric_iteration wMt wLedger "mse" = .ok i ∧
      b ∈ wHist ∧
      (wMt "mse" = "min" → ∀ v ∈ wHist, FVal.fle b v = true) ∧
      (wMt "mse" = "max" → ∀ v ∈ wHist, FVal.fle v b = true) ∧
      1 ≤ i ∧ i ≤ wLedger.parent_suggestions.length ∧
      wHist.get? (i - 1) = some b ∧
      ∀ j, 1 ≤ j → j < i → wHist.get? (j - 1) ≠ some b :=
  (get_best_metric_spec wMt wLedger "mse").2 wHist rfl (by decide)
    (by decide) rfl

theorem clookup_cons (p : FVal × PipelineRecord) (c : Container) (k : FVal) :
    clookup (p :: c) k = if p.1 == k then some p.2 else clookup c k := by
  unfold clookup
  by_cases hp : (p.1 == k) = true
  · simp only [List.find?_cons, hp, if_pos hp]
    rfl
  · have hp2 : (p.1 == k) = false := by simpa using hp
    simp only [List.find?_cons, hp2, if_neg hp]
    simp

theorem clookup_replace_self (k : FVal) (v : PipelineRecord) :
    ∀ c : Container, c.any (fun p => p.1 == k) = true →
      clookup (c.map (fun p => if p.1 == k then (k, v) else p)) k = some v := by
  intro c
  induction c with
  | nil => intro h; simp at h
  | cons p rest ih =>
    intro h
    rw [List.map_cons]
    by_cases hp : (p.1 == k) = true
    · rw [if_pos hp, clookup_cons]
      simp
    · rw [if_neg hp, clookup_cons, if_neg hp]
      apply ih
      simp only [List.any_cons, hp, Bool.false_or] at h
      exact h

theorem clookup_append_self (k : FVal) (v : PipelineRecord) :
    ∀ c : Container, c.any (fun p => p.1 == k) = false →
      clookup (c ++ [(k, v)]) k = some v := by
  intro c
  induction c with
  | nil =>
    intro _
    rw [List.nil_append, clookup_cons]
    simp
  | cons p rest ih =>
    intro h
    simp only [List.any_cons, Bool.or_eq_false_iff] at h
    rw [List.cons_append, clookup_cons, if_neg (by simp [h.1])]
    exact ih h.2

theorem clookup_replace_ne (k k' : FVal) (v : PipelineRecord) (hne : k' ≠ k) :
    ∀ c : Container,
      clookup (c.map (fun p => if p.1 == k then (k, v) else p)) k' =
        clookup c k' := by
  intro c
  induction c with
  | nil => rfl
  | cons p rest ih =>
    rw [List.map_cons]
    by_cases hp : (p.1 == k) = true
    · rw [if_pos hp, clookup_cons, clookup_cons]
      have hp1 : p.1 = k := beq_iff_eq.mp hp
      have h1 : ¬(((k, v).1 == k') = true) := by
        simp
        exact fun hh => hne hh.symm
      have h2 : ¬((p.1 == k') = true) := by
        simp [hp1]
        exact fun hh => hne hh.symm
      rw [if_neg h1, if_neg h2]
      exact ih
    · rw [if_neg hp, clookup_cons, clookup_cons]
      by_cases hq : (p.1 == k') = true
      · rw [if_pos hq, if_pos hq]
      · rw [if_neg hq, if_neg hq]
        exact ih

theorem clookup_append_ne (k k' : FVal) (v : PipelineRecord) (hne : k' ≠ k) :
    ∀ c : Container, clookup (c ++ [(k, v)]) k' = clookup c k' := by
  intro c
  induction c with
  | nil =>
    rw [List.nil_append, clookup_cons,
      if_neg (fun hh => hne (beq_iff_eq.mp hh).symm)]
  | cons p rest ih =>
    rw [List.cons_append, clookup_cons, clookup_cons]
    by_cases hq : (p.1 == k') = true
    · rw [if_pos hq, if_pos hq]
    · rw [if_neg hq, if_neg hq]
      exact ih

theorem clookup_dictInsert (c : Container) (k k' : FVal) (v : PipelineRecord) :
    clookup (dictInsert c k v) k' =
      if k' = k then some v else clookup c k' := by
  unfold dictInsert
  by_cases h : (c.any (fun p => p.1 == k)) = true
  · rw [if_pos h]
    by_cases hk : k' = k
    · rw [if_pos hk, hk]
      exact clookup_replace_self k v c h
    · rw [if_neg hk]
      exact clookup_replace_ne k k' v hk c
  · rw [if_neg h]
    by_cases hk : k' = k
    · rw [if_pos hk, hk]
      refine clookup_append_self k v c ?_
      cases hb : c.any (fun p => p.1 == k)
      · rfl
      · exact absurd hb h
    · rw [if_neg hk]
      exact clookup_append_ne k k' v hk c

theorem ckeys_dictInsert (c : Container) (k : FVal) (v : PipelineRecord) :
    ckeys (dictInsert c k v) =
      if c.any (fun p => p.1 == k) = true then ckeys c
      else ckeys c ++ [k] := by
  unfold dictInsert ckeys
  split_ifs with h
  · rw [List.map_map]
    congr 1
    funext p
    by_cases hp : (p.1 == k) = true
    · simp only [Function.comp_apply, if_pos hp]
      exact (beq_iff_eq.mp hp).symm
    · simp only [Function.comp_apply, if_neg hp]
  · simp

theorem ckeys_nodup_dictInsert (c : Container) (k : FVal) (v : PipelineRecord)
    (h : (ckeys c).Nodup) : (ckeys (dictInsert c k v)).Nodup := by
  rw [ckeys_dictInsert]
  split_ifs with hc
  · exact h
  · have hk : k ∉ ckeys c := by
      intro hmem
      rcases List.mem_map.mp hmem with ⟨p, hp, he⟩
      exact hc (List.any_eq_true.mpr ⟨p, hp, by simp [he]⟩)
    rw [List.nodup_append]
    refine ⟨h, List.nodup_singleton k, ?_⟩
    intro a ha hb
    rw [List.mem_singleton] at hb
    subst hb
    exact hk ha

theorem dictInsert_ne_nil (c : Container) (k : FVal) (v : PipelineRecord) :
    dictInsert c k v ≠ [] := by
  unfold dictInsert
  split_ifs with h
  · intro hc
    rcases c with _ | ⟨p, rest⟩
    · simp at h
    · simp at hc
  · simp

theorem clookup_of_mem : ∀ (c : Container), (ckeys c).Nodup →
    ∀ e ∈ c, clookup c e.1 = some e.2 := by
  intro c
  induction c with
  | nil =>
    intro _ e he
    simp at he
  | cons p rest ih =>
    intro hnd e he
    have hnd2 : (ckeys rest).Nodup :=
      (List.nodup_cons.mp (by simpa [ckeys] using hnd)).2
    rw [clookup_cons]
    rcases List.mem_cons.mp he with rfl | he2
    · rw [if_pos (by simp)]
    · by_cases hp : (p.1 == e.1) = true
      · exfalso
        have he1 : e.1 ∈ ckeys rest := List.mem_map.mpr ⟨e, he2, rfl⟩
        have hnm : p.1 ∉ ckeys rest :=
          (List.nodup_cons.mp (by simpa [ckeys] using hnd)).1
        exact hnm (by rw [beq_iff_eq.mp hp]; exact he1)
      · rw [if_neg hp]
        exact ih hnd2 e he2

theorem mem_of_clookup : ∀ (c : Container) (k : FVal) (r : PipelineRecord),
    clookup c k = some r → (k, r) ∈ c := by
  intro c
  induction c with
  | nil =>
    intro k r h
    simp [clookup] at h
  | cons p rest ih =>
    intro k r h
    rw [clookup_cons] at h
    by_cases hp : (p.1 == k) = true
    · rw [if_pos hp] at h
      injection h with h
      have hpe : p = (k, r) := by
        obtain ⟨p1, p2⟩ := p
        have h1 : p1 = k := beq_iff_eq.mp hp
        have h2 : p2 = r := h
        rw [h1, h2]
      rw [← hpe]
      exact List.mem_cons_self _ _
    · rw [if_neg hp] at h
      exact List.mem_cons_of_mem _ (ih k r h)

theorem buildContainer_error (m : String) (hist : List FVal) :
    ∀ (recs : List PipelineRecord) (it : ℕ) (acc : Container) (e : PyErr),
      buildContainer m hist it recs acc = .error e → e = .keyError := by
  intro recs
  induction recs with
  | nil =>
    intro it acc e h
    cases h
  | cons r rest ih =>
    intro it acc e h
    unfold buildContainer at h
    by_cases hmr : recMatches m r = true
    · rw [if_pos hmr] at h
      rcases hg : hist.get? (it - 1) with _ | v
      · rw [hg] at h
        injection h with h
        exact h.symm
      · rw [hg] at h
        exact ih _ _ _ h
    · rw [if_neg hmr] at h
      exact ih _ _ _ h

theorem buildContainer_nomatch (m : String) (hist : List FVal) :
    ∀ (recs : List PipelineRecord) (it : ℕ) (acc : Container),
      (∀ r ∈ recs, recMatches m r = false) →
      buildContainer m hist it recs acc = .ok acc := by
  intro recs
  induction recs with
  | nil =>
    intro it acc _
    rfl
  | cons r rest ih =>
    intro it acc h
    unfold buildContainer
    rw [if_neg (by simp [h r (List.mem_cons_self _ _)])]
    exact ih _ _ (fun s hs => h s (List.mem_cons_of_mem _ hs))

theorem buildContainer_empty (m : String) (hist : List FVal) :
    ∀ (recs : List PipelineRecord) (it : ℕ) (acc : Container) (c : Container),
      buildContainer m hist it recs acc = .ok c → c = [] →
      acc = [] ∧ ∀ r ∈ recs, recMatches m r = false := by
  intro recs
  induction recs with
  | nil =>
    intro it acc c h hc
    injection h with h
    subst h
    exact ⟨hc, by simp⟩
  | cons r rest ih =>
    intro it acc c h hc
    unfold buildContainer at h
    by_cases hmr : recMatches m r = true
    · rw [if_pos hmr] at h
      rcases hg : hist.get? (it - 1) with _ | v
      · rw [hg] at h
        cases h
      · rw [hg] at h
        obtain ⟨h1, _⟩ := ih _ _ _ h hc
        exact absurd h1 (dictInsert_ne_nil acc v.round4 r)
    · rw [if_neg hmr] at h
      obtain ⟨h1, h2⟩ := ih _ _ _ h hc
      refine ⟨h1, ?_⟩
      intro r2 hr2
      rcases List.mem_cons.mp hr2 with rfl | hr3
      · simpa using hmr
      · exact h2 r2 hr3

theorem buildContainer_ok (m : String) (hist : List FVal) :
    ∀ (recs : List PipelineRecord) (it : ℕ) (acc : Container),
      1 ≤ it → it - 1 + recs.length ≤ hist.length →
      ∃ c, buildContainer m hist it recs acc = .ok c := by
  intro recs
  induction recs with
  | nil =>
    intro it acc _ _
    exact ⟨acc, rfl⟩
  | cons r rest ih =>
    intro it acc hit hlen
    rw [List.length_cons] at hlen
    unfold buildContainer
    by_cases hmr : recMatches m r = true
    · rw [if_pos hmr]
      rcases hg : hist.get? (it - 1) with _ | v
      · exfalso
        rw [List.get?_eq_getElem?, List.getElem?_eq_none_iff] at hg
        omega
      · exact ih (it + 1) _ (by omega) (by omega)
    · rw [if_neg hmr]
      exact ih (it + 1) _ (by omega) (by omega)

theorem buildContainer_clookup (m : String) (hist : List FVal) :
    ∀ (recs : List PipelineRecord) (it : ℕ) (acc : Container) (c : Container),
      buildContainer m hist it recs acc = .ok c →
      (ckeys acc).Nodup →
      (ckeys c).Nodup ∧
      ∀ k, clookup c k =
        match lastKeyMatch m hist it recs k with
        | some s => some s
        | none => clookup acc k := by
  intro recs
  induction recs with
  | nil =>
    intro it acc c h hnd
    injection h with h
    subst h
    refine ⟨hnd, ?_⟩
    intro k
    rw [lastKeyMatch]
  | cons r rest ih =>
    intro it acc c h hnd
    unfold buildContainer at h
    by_cases hmr : recMatches m r = true
    · rw [if_pos hmr] at h
      rcases hg : hist.get? (it - 1) with _ | v
      · rw [hg] at h
        cases h
      · rw [hg] at h
        obtain ⟨hnd2, hlk⟩ :=
          ih _ _ _ h (ckeys_nodup_dictInsert acc v.round4 r hnd)
        refine ⟨hnd2, ?_⟩
        intro k
        rw [hlk k]
        have hcons : lastKeyMatch m hist it (r :: rest) k =
            match lastKeyMatch m hist (it + 1) rest k with
            | some s => some s
            | none =>
              if recMatches m r &&
                  ((hist.get? (it - 1)).map FVal.round4 == some k)
              then some r else none := by
          rw [lastKeyMatch]
        rw [hcons]
        rcases hrest : lastKeyMatch m hist (it + 1) rest k with _ | s
        · rw [clookup_dictInsert, hg]
          by_cases hk : k = v.round4
          · rw [if_pos hk]
            have hc : (recMatches m r &&
                ((some v).map FVal.round4 == some k)) = true := by
              simp [hmr, hk]
            rw [hc]
            rfl
          · rw [if_neg hk]
            have hc : (recMatches m r &&
                ((some v).map FVal.round4 == some k)) = false := by
              simp [hmr]
              exact fun hh => hk hh.symm
            rw [hc]
            rfl
        · rfl
    · rw [if_neg hmr] at h
      obtain ⟨hnd2, hlk⟩ := ih _ _ _ h hnd
      refine ⟨hnd2, ?_⟩
      intro k
      rw [hlk k]
      have hcons : lastKeyMatch m hist it (r :: rest) k =
          match lastKeyMatch m hist (it + 1) rest k with
          | some s => some s
          | none =>
            if recMatches m r &&
                ((hist.get? (it - 1)).map FVal.round4 == some k)
            then some r else none := by
        rw [lastKeyMatch]
      rw [hcons]
      rcases hrest : lastKeyMatch m hist (it + 1) rest k with _ | s
      · have hc : (recMatches m r &&
            ((hist.get? (it - 1)).map FVal.round4 == some k)) = false := by
          simp [hmr]
        rw [hc]
        rfl
      · rfl

theorem lastKeyMatch_none (m : String) (hist : List FVal) :
    ∀ (recs : List PipelineRecord) (it : ℕ) (k : FVal),
      lastKeyMatch m hist it recs k = none →
      ∀ p r, p < recs.length → recs.get? p = some r →
        recMatches m r = true →
        (hist.get? (it + p - 1)).map FVal.round4 ≠ some k := by
  intro recs
  induction recs with
  | nil =>
    intro it k _ p r hp
    simp at hp
  | cons r0 rest ih =>
    intro it k h p r hp hr hmr
    rw [lastKeyMatch] at h
    rcases hrest : lastKeyMatch m hist (it + 1) rest k with _ | s
    · rw [hrest] at h
      rcases p with _ | p'
    
      · rw [List.get?_cons_zero] at hr
        injection hr with hr
        subst hr
        intro hmap
        rw [Nat.add_zero] at hmap
        obtain ⟨a, ha, hak⟩ := Option.map_eq_some'.mp hmap
        rw [List.get?_eq_getElem?] at ha
        rw [if_pos (by simp [hmr]; exact ⟨a, ha, hak⟩)] at h
        cases h
      · intro hmap
        have he : it + (p' + 1) - 1 = (it + 1) + p' - 1 := by omega
        rw [he] at hmap
        exact ih (it + 1) k hrest p' r (by simpa using hp)
          (by simpa using hr) hmr hmap
    · rw [hrest] at h
      cases h

theorem lastKeyMatch_spec (m : String) (hist : List FVal) :
    ∀ (recs : List PipelineRecord) (it : ℕ) (k : FVal) (r : PipelineRecord),
      lastKeyMatch m hist it recs k = some r →
      ∃ p, p < recs.length ∧ recs.get? p = some r ∧ recMatches m r = true ∧
        (hist.get? (it + p - 1)).map FVal.round4 = some k ∧
        ∀ q s, p < q → q < recs.length → recs.get? q = some s →
          recMatches m s = true →
          (hist.get? (it + q - 1)).map FVal.round4 ≠ some k := by
  intro recs
  induction recs with
  | nil =>
    intro it k r h
    rw [lastKeyMatch] at h
    cases h
  | cons r0 rest ih =>
    intro it k r h
    rw [lastKeyMatch] at h
    rcases hrest : lastKeyMatch m hist (it + 1) rest k with _ | s
    · rw [hrest] at h
      by_cases hc : (recMatches m r0 &&
          ((hist.get? (it - 1)).map FVal.round4 == some k)) = true
      · rw [if_pos hc] at h
        injection h with h
        subst h
        obtain ⟨hm0, hk0⟩ := Bool.and_eq_true_iff.mp hc
        have hk1 : (hist.get? (it - 1)).map FVal.round4 = some k := by
          exact beq_iff_eq.mp hk0
        refine ⟨0, by simp, by rw [List.get?_cons_zero], hm0, ?_, ?_⟩
        · rw [Nat.add_zero]
          exact hk1
        · intro q s hq hqlen hqget hqm
          rcases q with _ | q'
          · omega
          · have he : it + (q' + 1) - 1 = (it + 1) + q' - 1 := by omega
            rw [he]
            exact lastKeyMatch_none m hist rest (it + 1) k hrest q' s
              (by simpa using hqlen) (by simpa using hqget) hqm
      · rw [if_neg hc] at h
        cases h
    · rw [hrest] at h
      injection h with h
      subst h
      obtain ⟨p, hp, hr, hm2, hk2, htail⟩ := ih (it + 1) k _ hrest
      refine ⟨p + 1, by simpa using hp, by simpa using hr, hm2, ?_, ?_⟩
      · have he : it + (p + 1) - 1 = (it + 1) + p - 1 := by omega
        rw [he]
        exact hk2
      · intro q s2 hq hqlen hqget hqm
        rcases q with _ | q'
        · omega
        · have he : it + (q' + 1) - 1 = (it + 1) + q' - 1 := by omega
          rw [he]
          exact htail q' s2 (by omega) (by simpa using hqlen)
            (by simpa using hqget) hqm

theorem lastKeyMatch_isSome (m : String) (hist : List FVal) :
    ∀ (recs : List PipelineRecord) (it : ℕ) (p : ℕ) (s : PipelineRecord)
      (k : FVal),
      p < recs.length → recs.get? p = some s → recMatches m s = true →
      (hist.get? (it + p - 1)).map FVal.round4 = some k →
      lastKeyMatch m hist it recs k ≠ none := by
  intro recs
  induction recs with
  | nil =>
    intro it p s k hp
    simp at hp
  | cons r0 rest ih =>
    intro it p s k hp hg hmr hk
    rw [lastKeyMatch]
    rcases hrest : lastKeyMatch m hist (it + 1) rest k with _ | s2
    · rcases p with _ | p'
      · rw [List.get?_cons_zero] at hg
        injection hg with hg
        subst hg
        rw [Nat.add_zero] at hk
        obtain ⟨a, ha, hak⟩ := Option.map_eq_some'.mp hk
        rw [List.get?_eq_getElem?] at ha
        rw [if_pos (by simp [hmr]; exact ⟨a, ha, hak⟩)]
        simp
      · exfalso
        have he : (it + 1) + p' - 1 = it + (p' + 1) - 1 := by omega
        exact ih (it + 1) p' s k (by simpa using hp) (by simpa using hg)
          hmr (by rw [he]; exact hk) hrest
    · simp

theorem getLast?_mem_container :
    ∀ (l : List (FVal × PipelineRecord)) (e : FVal × PipelineRecord),
      l.getLast? = some e → e ∈ l := by
  intro l
  induction l with
  | nil =>
    intro e h
    cases h
  | cons a rest ih =>
    intro e h
    rcases rest with _ | ⟨b, rest2⟩
    · rw [List.getLast?_singleton] at h
      injection h with h
      subst h
      exact List.mem_cons_self _ _
    · rw [List.getLast?_cons_cons] at h
      exact List.mem_cons_of_mem _ (ih e h)

theorem sorted_rel_getLast :
    ∀ (l : List (FVal × PipelineRecord)), l.Sorted itemLe →
      ∀ e, l.getLast? = some e → ∀ x ∈ l, itemLe x e := by
  intro l
  induction l with
  | nil =>
    intro _ e he
    cases he
  | cons a rest ih =>
    intro hs e he x hx
    rcases rest with _ | ⟨b, rest2⟩
    · rw [List.getLast?_singleton] at he
      injection he with he
      subst he
      have hxa := List.mem_singleton.mp hx
      subst hxa
      exact FVal.fle_refl _
    · rw [List.getLast?_cons_cons] at he
      rcases List.mem_cons.mp hx with rfl | hx2
      · have hemem : e ∈ b :: rest2 := getLast?_mem_container _ e he
        exact List.rel_of_sorted_cons hs e hemem
      · exact ih hs.of_cons e he x hx2

theorem sorted_last_max (c : Container) (hne : c ≠ []) :
    ∃ e, (List.insertionSort itemLe c).getLast? = some e ∧ e ∈ c ∧
      ∀ x ∈ c, itemLe x e := by
  haveI : IsTotal (FVal × PipelineRecord) itemLe :=
    ⟨fun a b => FVal.fle_total a.1 b.1⟩
  haveI : IsTrans (FVal × PipelineRecord) itemLe :=
    ⟨fun a b c2 h1 h2 => FVal.fle_trans h1 h2⟩
  have hperm := List.perm_insertionSort itemLe c
  have hsorted := List.sorted_insertionSort itemLe c
  have hne2 : List.insertionSort itemLe c ≠ [] := by
    intro h0
    rw [h0] at hperm
    exact hne hperm.nil_eq.symm
  rcases hl : (List.insertionSort itemLe c).getLast? with _ | e
  · exfalso
    rw [List.getLast?_eq_none_iff] at hl
    exact hne2 hl
  · refine ⟨e, rfl, ?_, ?_⟩
    · exact hperm.mem_iff.mp (getLast?_mem_container _ e hl)
    · intro x hx
      exact sorted_rel_getLast _ hsorted e hl x (hperm.mem_iff.mpr hx)

theorem gbp_unfold (st : RunLedger) (model_name metric_name : String)
    (hist : List FVal) (hm : lookupMetric st metric_name = some hist) :
    get_best_pipeline_by_model st model_name metric_name =
      match buildContainer model_name hist 1 st.parent_suggestions [] with
      | .error e => .error e
      | .ok c =>
        if c.isEmpty then .error .modelNotUsed
        else
          match (List.insertionSort itemLe c).getLast? with
          | some e => .ok e
          | none => .error .indexError := by
  unfold get_best_pipeline_by_model
  rw [hm]

/-- C1: `get_best_pipeline_by_model` considers exactly the parent-trial
records whose model dictionary contains the model name, keys each by
its iteration metric value rounded to 4 decimal places with
last-write-wins on equal keys, and returns the entry with the
numerically largest rounded key regardless of the metric direction.
Indices `i`, `j` are 0-based list positions; the corresponding 1-based
iteration numbers are `i + 1`, `j + 1`. -/
theorem get_best_pipeline_by_model_spec (st : RunLedger)
    (model_name metric_name : String) (hist : List FVal)
    (hm : lookupMetric st metric_name = some hist)
    (hlen : st.parent_suggestions.length ≤ hist.length)
    (_hfin : ∀ v ∈ hist, v.isNan = false)
    (hmatch : ∃ r ∈ st.parent_suggestions, recMatches model_name r = true) :
    ∃ i r v, i < st.parent_suggestions.length ∧
      st.parent_suggestions.get? i = some r ∧
      recMatches model_name r = true ∧ hist.get? i = some v ∧
      get_best_pipeline_by_model st model_name metric_name =
        .ok (v.round4, r) ∧
      (∀ j s w, j < st.parent_suggestions.length →
        st.parent_suggestions.get? j = some s →
        recMatches model_name s = true → hist.get? j = some w →
        FVal.fle w.round4 v.round4 = true) ∧
      (∀ j s w, i < j → j < st.parent_suggestions.length →
        st.parent_suggestions.get? j = some s →
        recMatches model_name s = true → hist.get? j = some w →
        w.round4 ≠ v.round4) := by
  obtain ⟨c, hc⟩ := buildContainer_ok model_name hist st.parent_suggestions 1 []
    (le_refl 1) (by omega)
  have hcne : c ≠ [] := by
    intro h0
    obtain ⟨_, hnm⟩ := buildContainer_empty model_name hist _ _ _ _ hc h0
    obtain ⟨r0, hr0, hr0m⟩ := hmatch
    rw [hnm r0 hr0] at hr0m
    cases hr0m
  obtain ⟨hnd, hlk⟩ :=
    buildContainer_clookup model_name hist _ _ _ _ hc (by simp [ckeys])
  obtain ⟨e, hlast, hemem, hmax⟩ := sorted_last_max c hcne
  have hres : get_best_pipeline_by_model st model_name metric_name =
      .ok e := by
    rw [gbp_unfold st model_name metric_name hist hm, hc]
    show (if c.isEmpty = true then Except.error PyErr.modelNotUsed
      else
        match (List.insertionSort itemLe c).getLast? with
        | some e2 => Except.ok e2
        | none => Except.error PyErr.indexError) = Except.ok e
    rw [if_neg (by simpa [List.isEmpty_iff] using hcne), hlast]
  have hclk : clookup c e.1 = some e.2 := clookup_of_mem c hnd e hemem
  have hlkm : lastKeyMatch model_name hist 1 st.parent_suggestions e.1 =
      some e.2 := by
    have hthis := hlk e.1
    rw [hclk] at hthis
    rcases hcase : lastKeyMatch model_name hist 1 st.parent_suggestions e.1
      with _ | s
    · rw [hcase] at hthis
      exact Option.noConfusion hthis
    · rw [hcase] at hthis
      injection hthis with h2
      rw [h2]
  obtain ⟨p, hp, hrp, hmp, hkp, htail⟩ :=
    lastKeyMatch_spec model_name hist st.parent_suggestions 1 e.1 e.2 hlkm
  have hidx : 1 + p - 1 = p := by omega
  rw [hidx] at hkp
  obtain ⟨v, hv, hvk⟩ := Option.map_eq_some'.mp hkp
  refine ⟨p, e.2, v, hp, hrp, hmp, hv, ?_, ?_, ?_⟩
  · rw [hres]
    have hee : e = (v.round4, e.2) := by
      obtain ⟨e1, e2⟩ := e
      simp only [Prod.mk.injEq, and_true]
      exact hvk.symm
    rw [← hee]
  · intro j s w hj hjget hjm hjd
    have hkey : (hist.get? (1 + j - 1)).map FVal.round4 = some w.round4 := by
      have he2 : 1 + j - 1 = j := by omega
      rw [he2, hjd]
      rfl
    have hne3 := lastKeyMatch_isSome model_name hist st.parent_suggestions 1
      j s w.round4 hj hjget hjm hkey
    obtain ⟨s2, hs2⟩ := Option.ne_none_iff_exists'.mp hne3
    have hlw : clookup c w.round4 = some s2 := by
      rw [hlk w.round4, hs2]
    have hmem2 : (w.round4, s2) ∈ c := mem_of_clookup c w.round4 s2 hlw
    have hle := hmax _ hmem2
    have hle2 : FVal.fle w.round4 e.1 = true := hle
    rw [← hvk] at hle2
    exact hle2
  · intro j s w hij hj hjget hjm hjd heq
    have he2 : 1 + j - 1 = j := by omega
    refine htail j s hij hj hjget hjm ?_
    rw [he2, hjd]
    rw [Option.map_some']
    rw [heq, hvk]

/-- Witness for C1 on the concrete ledger: model "A" appears at
iterations 1 and 3 with rounded `mse` keys 3 and 2; the entry with the
numerically largest rounded key is returned. -/
theorem get_best_pipeline_by_model_spec_witness :
    ∃ i r v, i < wLedger.parent_suggestions.length ∧
      wLedger.parent_suggestions.get? i = some r ∧
      recMatches "A" r = true ∧ wHist.get? i = some v ∧
      get_best_pipeline_by_model wLedger "A" "mse" = .ok (v.round4, r) ∧
      (∀ j s w, j < wLedger.parent_suggestions.length →
        wLedger.parent_suggestions.get? j = some s →
        recMatches "A" s = true → wHist.get? j = some w →
        FVal.fle w.round4 v.round4 = true) ∧
      (∀ j s w, i < j → j < wLedger.parent_suggestions.length →
        wLedger.parent_suggestions.get? j = some s →
        recMatches "A" s = true → wHist.get? j = some w →
        w.round4 ≠ v.round4) :=
  get_best_pipeline_by_model_spec wLedger "A" "mse" wHist rfl
    (by decide) (by decide) ⟨wRecA1, by decide, by decide⟩

/-- C4: with a monitored metric, `get_best_pipeline_by_model` raises
`ModelNotUsedError` if and only if no parent-trial record contains the
model name as a key of its model dictionary. -/
theorem get_best_pipeline_by_model_not_used (st : RunLedger)
    (model_name metric_name : String) (hist : List FVal)
    (hm : lookupMetric st metric_name = some hist) :
    (get_best_pipeline_by_model st model_name metric_name =
        .error .modelNotUsed ↔
      ∀ r ∈ st.parent_suggestions, recMatches model_name r = false) := by
  constructor
  · intro h
    rw [gbp_unfold st model_name metric_name hist hm] at h
    rcases hb : buildContainer model_name hist 1 st.parent_suggestions []
      with e | c
    · rw [hb] at h
      injection h with h
      have hke := buildContainer_error model_name hist _ _ _ _ hb
      rw [hke] at h
      cases h
    · rw [hb] at h
      have h2 : (if c.isEmpty = true then Except.error PyErr.modelNotUsed
          else
            match (List.insertionSort itemLe c).getLast? with
            | some e2 => Except.ok e2
            | none => Except.error PyErr.indexError) =
          Except.error PyErr.modelNotUsed := h
      by_cases he : c.isEmpty = true
      · exact (buildContainer_empty model_name hist _ _ _ _ hb
          (by simpa [List.isEmpty_iff] using he)).2
      · rw [if_neg he] at h2
        rcases hl : (List.insertionSort itemLe c).getLast? with _ | e2
        · rw [hl] at h2
          cases h2
        · rw [hl] at h2
          cases h2
  · intro h
    rw [gbp_unfold st model_name metric_name hist hm,
      buildContainer_nomatch model_name hist _ 1 [] h]
    rfl

/-- Witness for C4: the unused model name "Zed" raises
`ModelNotUsedError` on the concrete ledger; the used model name "A"
does not. -/
theorem get_best_pipeline_by_model_not_used_witness :
    get_best_pipeline_by_model wLedger "Zed" "mse" = .error .modelNotUsed ∧
    get_best_pipeline_by_model wLedger "A" "mse" ≠ .error .modelNotUsed := by
  constructor
  · exact (get_best_pipeline_by_model_not_used wLedger "Zed" "mse" wHist
      rfl).mpr (by decide)
  · intro h
    have hall := (get_best_pipeline_by_model_not_used wLedger "A" "mse" wHist
      rfl).mp h
    have h2 := hall wRecA1 (by decide)
    have h3 : recMatches "A" wRecA1 = true := by decide
    rw [h2] at h3
    cases h3
